import Mathlib

/-!
Verification of the DES (Datavision Easy Store) container codec, reader,
shard-lock service, retriever routing and crash recovery, as implemented in
the repository sources (src/src/des/...).  The container is modelled as a
list of byte values (natural numbers < 256); Python ints are modelled as
Nat/Int with explicit wrap-around where the binary format fixes a width.
-/

namespace Des

/-! ### Byte-level primitives

Little-endian fixed-width encodings used by struct.pack / struct.unpack
(formats "<H", "<Q", "<I") and byte-range slicing used by the readers.
-/

/-- Little-endian encoding of `n` on `k` bytes (struct.pack behaviour:
the value is reduced modulo 256^k byte by byte). -/
def bytesLE : Nat → Nat → List Nat
  | 0, _ => []
  | k + 1, n => n % 256 :: bytesLE k (n / 256)

/-- Value of a little-endian byte list (struct.unpack behaviour). -/
def leVal : List Nat → Nat
  | [] => 0
  | b :: rest => b + 256 * leVal rest

/-- Byte-range slice: `slice l off len` models `l[off : off + len]` for a
Python bytes object (reads past the end are truncated, as file.read and
bytes slicing both truncate). -/
def slice (l : List Nat) (off len : Nat) : List Nat :=
  (l.drop off).take len

theorem bytesLE_length (k n : Nat) : (bytesLE k n).length = k := by
  induction k generalizing n with
  | zero => rfl
  | succ k ih => simp [bytesLE, ih]

theorem leVal_bytesLE (k n : Nat) (h : n < 256 ^ k) : leVal (bytesLE k n) = n := by
  induction k generalizing n with
  | zero => simp at h; simp [h, bytesLE, leVal]
  | succ k ih =>
      simp only [bytesLE, leVal]
      rw [ih (n / 256) (by
        have h256 : 0 < 256 := by norm_num
        rw [Nat.div_lt_iff_lt_mul h256]
        calc n < 256 ^ (k + 1) := h
          _ = 256 ^ k * 256 := by ring)]
      omega

theorem slice_append_sub (a b : List Nat) (k len : Nat) :
    slice (a ++ b) (a.length + k) len = slice b k len := by
  have hnil : a.drop (a.length + k) = [] := List.drop_eq_nil_of_le (by omega)
  simp [slice, List.drop_append_eq_append_drop, hnil]

theorem slice_append_self (a b : List Nat) :
    slice (a ++ b) a.length b.length = b := by
  simp [slice]

theorem slice_length_of_le (l : List Nat) (off len : Nat)
    (h : off + len ≤ l.length) : (slice l off len).length = len := by
  simp [slice]
  omega

/-- Nested slicing: a slice of a slice is a slice when the inner window
lies inside the outer one. -/
theorem slice_slice (l : List Nat) (a b a2 n : Nat)
    (h1 : a ≤ a2) (h2 : a2 + n ≤ b) :
    slice (slice l a (b - a)) (a2 - a) n = slice l a2 n := by
  simp only [slice]
  rw [List.drop_take, List.take_take, List.drop_drop]
  have e1 : a + (a2 - a) = a2 := by omega
  have e2 : min n (b - a - (a2 - a)) = n := by omega
  rw [e1, e2]

/-! ### Strings as bytes

All names accepted by the writer and all metadata emitted by it are ASCII,
where UTF-8 encoding is the identity on code points; `strBytes` models
`s.encode("utf-8")` on that fragment. -/

/-- Bytes of a string (valid for ASCII content, which is all the DES
format ever stores for names and the JSON metadata the writer emits). -/
def strBytes (s : String) : List Nat :=
  s.data.map Char.toNat

/-- Decode bytes back to a string, as `bytes.decode("utf-8")` restricted to
the ASCII plane; multi-byte sequences do not occur in writer output. -/
def decodeAscii (bs : List Nat) : Except Unit String :=
  if bs.all (· < 128) then .ok ⟨bs.map Char.ofNat⟩ else .error ()

theorem strBytes_append (s t : String) :
    strBytes (s ++ t) = strBytes s ++ strBytes t := by
  unfold strBytes
  rw [String.data_append, List.map_append]

theorem strBytes_length (s : String) : (strBytes s).length = s.length := by
  unfold strBytes
  rw [List.length_map]
  rfl

/-! ### Python dict as an insertion-ordered association list

`dictSet d k v` models `d[k] = v`: if the key is present its value is
replaced in place (iteration order keeps the original position), otherwise
the pair is appended. -/

def dictSet {α : Type} : List (String × α) → String → α → List (String × α)
  | [], k, v => [(k, v)]
  | (k0, v0) :: rest, k, v =>
      if k0 = k then (k, v) :: rest else (k0, v0) :: dictSet rest k v

def dictGet {α : Type} : List (String × α) → String → Option α
  | [], _ => none
  | (k0, v0) :: rest, k => if k0 = k then some v0 else dictGet rest k

theorem dictSet_of_not_mem {α : Type} (d : List (String × α)) (k : String) (v : α)
    (h : dictGet d k = none) : dictSet d k v = d ++ [(k, v)] := by
  induction d with
  | nil => rfl
  | cons p rest ih =>
      obtain ⟨k0, v0⟩ := p
      by_cases hk : k0 = k
      · simp [dictGet, hk] at h
      · simp only [dictGet, hk, if_false] at h
        simp [dictSet, hk, ih h]

theorem dictGet_dictSet_self {α : Type} (d : List (String × α)) (k : String) (v : α) :
    dictGet (dictSet d k v) k = some v := by
  induction d with
  | nil => simp [dictSet, dictGet]
  | cons p rest ih =>
      obtain ⟨k0, v0⟩ := p
      by_cases hk : k0 = k
      · simp [dictSet, hk, dictGet]
      · simp [dictSet, hk, dictGet, ih]

theorem dictGet_dictSet_other {α : Type} (d : List (String × α)) (k k2 : String) (v : α)
    (h : k2 ≠ k) : dictGet (dictSet d k v) k2 = dictGet d k2 := by
  have h2 : ¬(k = k2) := Ne.symm h
  induction d with
  | nil => simp [dictSet, dictGet, h2]
  | cons p rest ih =>
      obtain ⟨k0, v0⟩ := p
      by_cases hk : k0 = k
      · subst hk
        simp [dictSet, dictGet, h2]
      · simp only [dictSet, hk, if_false]
        by_cases hk2 : k0 = k2 <;> simp [dictGet, hk2, ih]

/-! ### Metadata values and the JSON encoding emitted by the writer

`json.dumps(meta_dict, separators=(",", ":"))` on the dictionaries the
writer builds: string, integer and boolean values, keys and string values
free of characters needing JSON escapes (all writer-generated keys and
values are of that shape). -/

inductive MVal : Type where
  | s : String → MVal
  | n : Nat → MVal
  | b : Bool → MVal
deriving DecidableEq, Repr

abbrev MetaDict := List (String × MVal)

def jsonOfMVal : MVal → String
  | .s v => "\"" ++ v ++ "\""
  | .n v => toString v
  | .b true => "true"
  | .b false => "false"

def jsonBody : MetaDict → String
  | [] => ""
  | [(k, v)] => "\"" ++ k ++ "\":" ++ jsonOfMVal v
  | (k, v) :: rest => "\"" ++ k ++ "\":" ++ jsonOfMVal v ++ "," ++ jsonBody rest

/-- `json.dumps(d, separators=(",", ":"))` for the writer's dictionaries. -/
def metaJson (d : MetaDict) : String :=
  "\x7b" ++ jsonBody d ++ "\x7d"

/-- The UTF-8 bytes of the serialized metadata blob. -/
def metaBytes (d : MetaDict) : List Nat :=
  strBytes (metaJson d)

/-! ### DES format constants (src/src/des/core/constants.py) -/

def HEADER_MAGIC : List Nat := strBytes "DESHEAD1"

def FOOTER_MAGIC : List Nat := strBytes "DESFOOT1"

def VERSION : Nat := 1

def HEADER_SIZE : Nat := 16

def FOOTER_SIZE : Nat := 72

/-- ENTRY_FIXED_STRUCT.size for "<QQQQI": four u64 fields plus one u32,
36 bytes (the source comment says 44, but struct.Struct computes 36 and
the writer and reader both use the computed size). -/
def ENTRY_FIXED_SIZE : Nat := 36

def FLAG_IS_EXTERNAL : Nat := 1

def MAX_FILENAME_LENGTH : Nat := 65535

def MAX_META_SIZE : Nat := 10 * 1024 * 1024

def MIN_DES_FILE_SIZE : Nat := HEADER_SIZE + FOOTER_SIZE

def EXTERNAL_FILES_FOLDER : String := "_bigFiles"

def DEFAULT_MAX_GAP_SIZE : Nat := 1024 * 1024

/-- The 16-byte header: magic, version byte, 7 reserved zero bytes
(HEADER_STRUCT.pack(HEADER_MAGIC, VERSION, b"\x005" * 7) with 0 bytes). -/
def headerBytes : List Nat :=
  HEADER_MAGIC ++ [VERSION] ++ List.replicate 7 0

theorem headerBytes_length : headerBytes.length = 16 := by decide

/-! ### Index entries and the binary index encoding -/

/-- In-memory index entry (src/src/des/core/models.py, IndexEntry). -/
structure IndexEntry : Type where
  name : String
  data_offset : Nat
  data_length : Nat
  meta_offset : Nat
  meta_length : Nat
  flags : Nat
deriving DecidableEq, Repr

/-- End of an entry's data interval, `entry.data_offset + entry.data_length`. -/
def IndexEntry.dataEnd (e : IndexEntry) : Nat :=
  e.data_offset + e.data_length

/-- `entry.flags & FLAG_IS_EXTERNAL` as a Bool. -/
def IndexEntry.isExternal (e : IndexEntry) : Bool :=
  e.flags % 2 = 1

/-- On-disk bytes of one index entry as written by DesWriter.close:
u16 LE name length, the UTF-8 name, then the five fixed fields packed
with ENTRY_FIXED_STRUCT ("<QQQQI"). -/
def encodeEntry (e : IndexEntry) : List Nat :=
  bytesLE 2 (strBytes e.name).length ++ strBytes e.name ++
    bytesLE 8 e.data_offset ++ bytesLE 8 e.data_length ++
    bytesLE 8 e.meta_offset ++ bytesLE 8 e.meta_length ++ bytesLE 4 e.flags

/-- The 72-byte footer written by DesWriter.close:
FOOTER_STRUCT.pack(FOOTER_MAGIC, VERSION, reserved, data_start, data_length,
meta_start, meta_length, index_start, index_length, file_count). -/
def packFooter (dataStart dataLength metaStart metaLength
    indexStart indexLength fileCount : Nat) : List Nat :=
  FOOTER_MAGIC ++ [VERSION] ++ List.replicate 7 0 ++
    bytesLE 8 dataStart ++ bytesLE 8 dataLength ++
    bytesLE 8 metaStart ++ bytesLE 8 metaLength ++
    bytesLE 8 indexStart ++ bytesLE 8 indexLength ++ bytesLE 8 fileCount

theorem packFooter_length (a b c d e f g : Nat) :
    (packFooter a b c d e f g).length = 72 := by
  simp [packFooter, bytesLE_length, FOOTER_MAGIC, strBytes]

/-! ### DesWriter (src/src/des/core/des_writer.py)

The writer is modelled as explicit state: the bytes written to the local
file so far, the buffered index entries and metadata blobs, the external
storage configuration and the list of objects uploaded to external
storage.  Filesystem and S3 effects are captured in the state; exceptions
become `Except.error`. -/

/-- Python exception kinds raised by the modelled code paths. -/
inductive PyErr : Type where
  | valueError
  | keyError
  | typeError
  | runtimeError
deriving DecidableEq, Repr

instance {e a : Type} [DecidableEq e] [DecidableEq a] : DecidableEq (Except e a) :=
  fun x y =>
    match x, y with
    | .error e1, .error e2 =>
        if h : e1 = e2 then isTrue (by rw [h])
        else isFalse (by intro hh; cases hh; exact h rfl)
    | .ok v1, .ok v2 =>
        if h : v1 = v2 then isTrue (by rw [h])
        else isFalse (by intro hh; cases hh; exact h rfl)
    | .error _, .ok _ => isFalse (by intro hh; cases hh)
    | .ok _, .error _ => isFalse (by intro hh; cases hh)

structure Writer : Type where
  file : List Nat
  data_start : Nat
  entries : List IndexEntry
  metaBuf : List Nat
  closed : Bool
  big_file_threshold : Nat
  extEnabled : Bool
  s3Pre : String
  extObjs : List (String × List Nat)
deriving Repr, DecidableEq

/-- DesWriter.__init__ for a fresh path: writes the header and records
`data_start`.  `ext = some p` models all three of (s3_client, bucket,
s3_prefix=p) being provided; `none` models none of them. -/
def newWriter (threshold : Nat) (ext : Option String) : Writer :=
  { file := headerBytes
    data_start := headerBytes.length
    entries := []
    metaBuf := []
    closed := false
    big_file_threshold := threshold
    extEnabled := ext.isSome
    s3Pre := ext.getD ""
    extObjs := [] }

/-- Characters allowed by DesWriter._validate_filename,
re.match(r"^[a-zA-Z0-9_\-\.]+$", name). -/
def allowedChar (c : Char) : Bool :=
  decide ((97 ≤ c.toNat ∧ c.toNat ≤ 122) ∨ (65 ≤ c.toNat ∧ c.toNat ≤ 90) ∨
    (48 ≤ c.toNat ∧ c.toNat ≤ 57) ∨ c.toNat = 95 ∨ c.toNat = 45 ∨ c.toNat = 46)

/-- DesWriter._validate_filename: non-empty, UTF-8 byte length at most
65535, characters restricted to [a-zA-Z0-9_\-.]. -/
def validate_filename (name : String) : Except PyErr Unit :=
  if name = "" then .error .valueError
  else if MAX_FILENAME_LENGTH < (strBytes name).length then .error .valueError
  else if ¬ name.data.all allowedChar then .error .valueError
  else .ok ()

/-- DesWriter.add_file.  Mirrors the source: closed check, filename
validation, externalisation decision, data append or external upload,
metadata augmentation ("size", and for external entries "is_external"
plus, when s3_prefix is truthy, "external_key"), metadata size check,
index entry recording. -/
def add_file (w : Writer) (name : String) (data : List Nat) (meta : MetaDict)
    (force_external : Bool) : Except PyErr Writer :=
  if w.closed then .error .runtimeError
  else match validate_filename name with
  | .error e => .error e
  | .ok _ =>
    let data_length := data.length
    let should := (force_external || decide (w.big_file_threshold ≤ data_length))
      && w.extEnabled
    let external_key := w.s3Pre ++ "/" ++ EXTERNAL_FILES_FOLDER ++ "/" ++ name
    let data_offset := if should then 0 else w.file.length
    let file2 := if should then w.file else w.file ++ data
    let extObjs2 := if should then w.extObjs ++ [(external_key, data)] else w.extObjs
    let md0 := dictSet meta "size" (.n data_length)
    let md : MetaDict :=
      if should then
        let md1 := dictSet md0 "is_external" (.b true)
        if w.s3Pre ≠ "" then dictSet md1 "external_key" (.s external_key) else md1
      else md0
    let mb := metaBytes md
    if MAX_META_SIZE < mb.length then .error .valueError
    else
      let entry : IndexEntry :=
        { name := name
          data_offset := data_offset
          data_length := data_length
          meta_offset := w.metaBuf.length
          meta_length := mb.length
          flags := if should then FLAG_IS_EXTERNAL else 0 }
      .ok { w with
        file := file2
        extObjs := extObjs2
        metaBuf := w.metaBuf ++ mb
        entries := w.entries ++ [entry] }

/-- DesWriter.close: append the meta region, rebase the relative meta
offsets to absolute file offsets, append the index region, append the
footer.  Returns the final container bytes. -/
def closeBytes (w : Writer) : List Nat :=
  let data_end := w.file.length
  let data_length := data_end - w.data_start
  let meta_start := data_end
  let file1 := w.file ++ w.metaBuf
  let entries1 := w.entries.map
    (fun e => { e with meta_offset := meta_start + e.meta_offset })
  let indexBytes := (entries1.map encodeEntry).flatten
  let index_start := file1.length
  let file2 := file1 ++ indexBytes
  file2 ++ packFooter w.data_start data_length meta_start w.metaBuf.length
    index_start indexBytes.length w.entries.length

/-- Fold DesWriter.add_file over a list of (name, data, meta) inputs with
force_external = False (the packer's calling convention). -/
def addAll (w : Writer) : List (String × List Nat × MetaDict) → Except PyErr Writer
  | [] => .ok w
  | (n, d, m) :: rest =>
      match add_file w n d m false with
      | .error e => .error e
      | .ok w2 => addAll w2 rest

/-! ### DesReader (src/src/des/core/des_reader.py)

The reader is modelled over the container bytes plus the contents of the
sibling `_bigFiles/` directory (an association list name → bytes).  The
cache path is not modelled (the claims concern the cold read path). -/

/-- The ten fields FOOTER_STRUCT.unpack yields from 72 bytes (reserved
bytes dropped, as the source drops them). -/
structure Footer : Type where
  magic : List Nat
  version : Nat
  data_start : Nat
  data_length : Nat
  meta_start : Nat
  meta_length : Nat
  index_start : Nat
  index_length : Nat
  file_count : Nat
deriving DecidableEq, Repr

/-- FOOTER_STRUCT.unpack on a 72-byte footer slice. -/
def unpackFooter (d : List Nat) : Footer :=
  { magic := slice d 0 8
    version := leVal (slice d 8 1)
    data_start := leVal (slice d 16 8)
    data_length := leVal (slice d 24 8)
    meta_start := leVal (slice d 32 8)
    meta_length := leVal (slice d 40 8)
    index_start := leVal (slice d 48 8)
    index_length := leVal (slice d 56 8)
    file_count := leVal (slice d 64 8) }

/-- DesReader._parse_footer: unpack, then check magic and version.
No other validation is performed by the source. -/
def parse_footer (d : List Nat) : Except PyErr Footer :=
  let f := unpackFooter d
  if f.magic ≠ FOOTER_MAGIC then .error .valueError
  else if f.version ≠ VERSION then .error .valueError
  else .ok f

structure Reader : Type where
  file : List Nat
  footer : Footer
  ext : List (String × List Nat)
deriving Repr, DecidableEq

/-- DesReader.__init__: reject objects smaller than 88 bytes, then read
and parse the final 72 bytes as the footer. -/
def mkReader (file : List Nat) (ext : List (String × List Nat)) :
    Except PyErr Reader :=
  if file.length < MIN_DES_FILE_SIZE then .error .valueError
  else
    match parse_footer (slice file (file.length - FOOTER_SIZE) FOOTER_SIZE) with
    | .error e => .error e
    | .ok f => .ok { file := file, footer := f, ext := ext }

/-- The index-parsing loop of DesReader._load_index: sequential entries,
any prefix overrun is a corruption error.  The loop is embedded with a
fuel parameter (each iteration consumes at least 38 bytes, so fuel equal
to the byte count never runs out; the 0-fuel case is unreachable). -/
def parseEntriesGo : Nat → List Nat → Except PyErr (List IndexEntry)
  | _, [] => .ok []
  | 0, _ :: _ => .error .valueError
  | fuel + 1, b0 :: raw2 =>
      let raw := b0 :: raw2
      if raw.length < 2 then .error .valueError
      else
        let name_len := leVal (raw.take 2)
        let rest := raw.drop 2
        if rest.length < name_len then .error .valueError
        else
          match decodeAscii (rest.take name_len) with
          | .error _ => .error .valueError
          | .ok name =>
            let rest2 := rest.drop name_len
            if rest2.length < ENTRY_FIXED_SIZE then .error .valueError
            else
              let e : IndexEntry :=
                { name := name
                  data_offset := leVal (slice rest2 0 8)
                  data_length := leVal (slice rest2 8 8)
                  meta_offset := leVal (slice rest2 16 8)
                  meta_length := leVal (slice rest2 24 8)
                  flags := leVal (slice rest2 32 4) }
              match parseEntriesGo fuel (rest2.drop ENTRY_FIXED_SIZE) with
              | .error er => .error er
              | .ok es => .ok (e :: es)

def parseEntries (raw : List Nat) : Except PyErr (List IndexEntry) :=
  parseEntriesGo raw.length raw

/-- The dict `idx[name] = entry` built by DesReader._load_index. -/
def buildIdx (es : List IndexEntry) : List (String × IndexEntry) :=
  es.foldl (fun d e => dictSet d e.name e) []

/-- DesReader._load_index on the cold path (no cache): empty index when
index_length is 0, otherwise parse the index slice. -/
def loadIndex (r : Reader) : Except PyErr (List (String × IndexEntry)) :=
  if r.footer.index_length = 0 then .ok []
  else
    match parseEntries (slice r.file r.footer.index_start r.footer.index_length) with
    | .error e => .error e
    | .ok es => .ok (buildIdx es)

/-- DesReader._read_external: full read of `_bigFiles/<name>`. -/
def read_external (r : Reader) (name : String) : Except PyErr (List Nat) :=
  match dictGet r.ext name with
  | some b => .ok b
  | none => .error .keyError

/-- DesReader.get_file on a loaded index. -/
def get_file_idx (r : Reader) (idx : List (String × IndexEntry))
    (name : String) : Except PyErr (List Nat) :=
  match dictGet idx name with
  | none => .error .keyError
  | some e =>
      if e.isExternal then read_external r e.name
      else .ok (slice r.file e.data_offset e.data_length)

/-- DesReader.get_file. -/
def get_file (r : Reader) (name : String) : Except PyErr (List Nat) :=
  match loadIndex r with
  | .error e => .error e
  | .ok idx => get_file_idx r idx name

/-- DesReader.get_meta, at the byte level: the raw slice of the meta
region that the source passes to json.loads.  json.loads inverts the
json.dumps encoding `metaBytes`, so "get_meta returns d" is stated as
"the raw slice equals metaBytes d". -/
def get_meta_raw_idx (r : Reader) (idx : List (String × IndexEntry))
    (name : String) : Except PyErr (List Nat) :=
  match dictGet idx name with
  | none => .error .keyError
  | some e => .ok (slice r.file e.meta_offset e.meta_length)

def get_meta_raw (r : Reader) (name : String) : Except PyErr (List Nat) :=
  match loadIndex r with
  | .error e => .error e
  | .ok idx => get_meta_raw_idx r idx name

/-- DesReader.list_files(include_external=True): the dict keys in
insertion order. -/
def list_files (r : Reader) : Except PyErr (List String) :=
  match loadIndex r with
  | .error e => .error e
  | .ok idx => .ok (idx.map (·.1))

/-! ### DesReader.get_files_batch

The result dict is modelled extensionally as a function from names to
optional byte lists, and the data range reads issued against the
container are returned alongside it so that batch efficiency can be
stated. -/

/-- A Python dict used only as a result value: name → payload. -/
def Results : Type := String → Option (List Nat)

def emptyResults : Results := fun _ => none

def updRes (r : Results) (k : String) (v : List Nat) : Results :=
  fun n => if n = k then some v else r n

/-- The internal/external split of get_files_batch: resolve each name,
skip misses, partition by the EXTERNAL flag, preserving order. -/
def splitNames (idx : List (String × IndexEntry)) :
    List String → List String × List String
  | [] => ([], [])
  | n :: rest =>
      match dictGet idx n with
      | none => splitNames idx rest
      | some ent =>
          if ent.isExternal then
            ((splitNames idx rest).1, n :: (splitNames idx rest).2)
          else
            (n :: (splitNames idx rest).1, (splitNames idx rest).2)

/-- The sort key of _entries_for_names: `key=lambda e: e.data_offset`. -/
def entryLE (a b : IndexEntry) : Prop :=
  a.data_offset ≤ b.data_offset

instance : DecidableRel entryLE :=
  fun a b => Nat.decLe a.data_offset b.data_offset

instance : IsTotal IndexEntry entryLE :=
  ⟨fun a b => Nat.le_total a.data_offset b.data_offset⟩

instance : IsTrans IndexEntry entryLE :=
  ⟨fun _ _ _ h1 h2 => Nat.le_trans h1 h2⟩

/-- DesReader._entries_for_names: resolve, then a stable sort by
data_offset (Python's sorted is stable; a stable sort over a fixed key is
extensionally unique, so the structurally recursive insertion sort models
it exactly). -/
def entriesForNames (idx : List (String × IndexEntry)) (names : List String) :
    List IndexEntry :=
  List.insertionSort entryLE (names.filterMap (dictGet idx))

/-- The gap test of DesReader._group_entries:
`entry.data_offset - (prev.data_offset + prev.data_length) <= max_gap_size`
computed in unbounded Python ints. -/
def gapOK (maxGap : Nat) (prev e : IndexEntry) : Prop :=
  (e.data_offset : Int) - (prev.dataEnd : Int) ≤ (maxGap : Int)

instance (maxGap : Nat) (prev e : IndexEntry) : Decidable (gapOK maxGap prev e) :=
  inferInstanceAs
    (Decidable ((e.data_offset : Int) - (prev.dataEnd : Int) ≤ (maxGap : Int)))

/-- Loop of DesReader._group_entries.  `cur` is the current batch in
reverse order; its head is the batch's most recently appended entry
(current_batch[-1] in the source). -/
def groupGo (maxGap : Nat) (cur : List IndexEntry) (lastE : IndexEntry) :
    List IndexEntry → List (List IndexEntry)
  | [] => [cur.reverse]
  | e :: rest =>
      if gapOK maxGap lastE e then groupGo maxGap (e :: cur) e rest
      else cur.reverse :: groupGo maxGap [e] e rest

/-- DesReader._group_entries. -/
def groupEntries (entries : List IndexEntry) (maxGap : Nat) :
    List (List IndexEntry) :=
  match entries with
  | [] => []
  | e :: rest => groupGo maxGap [e] e rest

/-- The single range read DesReader._fetch_batches issues for one batch:
(start_offset, end_offset - start_offset). -/
def batchRange (f : IndexEntry) (rest : List IndexEntry) : Nat × Nat :=
  let lastE := rest.getLastD f
  (f.data_offset, lastE.dataEnd - f.data_offset)

/-- One iteration of the batch loop in DesReader._fetch_batches: skip an
empty batch; otherwise read the single covering range and slice it per
entry, recording the issued (offset, length) range read. -/
def fetchStep (file : List Nat) (acc : Results × List (Nat × Nat))
    (batch : List IndexEntry) : Results × List (Nat × Nat) :=
  match batch with
  | [] => acc
  | f :: rest =>
      let start := f.data_offset
      let blen := (rest.getLastD f).dataEnd - start
      let bdata := slice file start blen
      ((f :: rest).foldl
        (fun res e => updRes res e.name
          (slice bdata (e.data_offset - start) e.data_length))
        acc.1,
       acc.2 ++ [(start, blen)])

/-- DesReader._fetch_batches: one range read per non-empty batch, then a
per-entry slice of the returned buffer.  Returns the result dict and the
list of issued (offset, length) range reads. -/
def fetchBatches (file : List Nat) (batches : List (List IndexEntry)) :
    Results × List (Nat × Nat) :=
  batches.foldl (fetchStep file) (emptyResults, [])

/-- DesReader.get_files_batch on a loaded index: split names, batch-read
the internal entries, then fetch external files individually (missing
external side-objects are skipped). -/
def get_files_batch_idx (r : Reader) (idx : List (String × IndexEntry))
    (names : List String) (maxGap : Nat) : Results × List (Nat × Nat) :=
  let (internalNames, externalNames) := splitNames idx names
  let entries := entriesForNames idx internalNames
  let batches := groupEntries entries maxGap
  let fetched := fetchBatches r.file batches
  let res := externalNames.foldl
    (fun res n =>
      match dictGet r.ext n with
      | some b => updRes res n b
      | none => res)
    fetched.1
  (res, fetched.2)

/-- DesReader.get_files_batch. -/
def get_files_batch (r : Reader) (names : List String) (maxGap : Nat) :
    Except PyErr (Results × List (Nat × Nat)) :=
  match loadIndex r with
  | .error e => .error e
  | .ok idx => .ok (get_files_batch_idx r idx names maxGap)

/-! ### Shard lock service (src/src/des/db/connector.py)

The des_shard_locks table keyed by shard_id (primary key), with the three
operations try_acquire_shard_lock / renew_shard_lock / release_shard_lock.
Timestamps are naturals; `now` is passed explicitly.  The PostgreSQL
upsert `ON CONFLICT (shard_id) DO UPDATE ... WHERE expires_at < now OR
holder_id = excluded.holder_id RETURNING shard_id` maps to the branches
below; success is "a row was returned". -/

structure LockRow : Type where
  holder_id : String
  acquired_at : Nat
  heartbeat_at : Nat
  expires_at : Nat
deriving DecidableEq, Repr

/-- The lock table, keyed by shard_id.  The primary key guarantees at most
one row per shard; `LockKeysUnique` states it and every operation
preserves it. -/
abbrev LockTable := List (Nat × LockRow)

def LockKeysUnique (t : LockTable) : Prop :=
  (t.map (·.1)).Nodup

instance (t : LockTable) : Decidable (LockKeysUnique t) := by
  unfold LockKeysUnique
  infer_instance

def lookupShard : LockTable → Nat → Option LockRow
  | [], _ => none
  | (s0, r) :: rest, s => if s0 = s then some r else lookupShard rest s

/-- Row replacement (UPDATE of the conflicting row) or insertion. -/
def setShard : LockTable → Nat → LockRow → LockTable
  | [], s, r => [(s, r)]
  | (s0, r0) :: rest, s, r =>
      if s0 = s then (s, r) :: rest else (s0, r0) :: setShard rest s r

/-- DesDbConnector.try_acquire_shard_lock. -/
def try_acquire_shard_lock (t : LockTable) (shard : Nat) (holder : String)
    (ttl now : Nat) : Bool × LockTable :=
  let newRow : LockRow :=
    { holder_id := holder, acquired_at := now, heartbeat_at := now
      expires_at := now + ttl }
  match lookupShard t shard with
  | none => (true, setShard t shard newRow)
  | some r =>
      if r.expires_at < now ∨ r.holder_id = holder then
        (true, setShard t shard newRow)
      else (false, t)

/-- DesDbConnector.renew_shard_lock: UPDATE guarded by shard, holder and
expires_at > now; acquired_at is not touched. -/
def renew_shard_lock (t : LockTable) (shard : Nat) (holder : String)
    (ttl now : Nat) : Bool × LockTable :=
  match lookupShard t shard with
  | none => (false, t)
  | some r =>
      if r.holder_id = holder ∧ now < r.expires_at then
        (true, setShard t shard
          { holder_id := holder, acquired_at := r.acquired_at
            heartbeat_at := now, expires_at := now + ttl })
      else (false, t)

/-- DesDbConnector.release_shard_lock: DELETE scoped to (shard, holder). -/
def release_shard_lock (t : LockTable) (shard : Nat) (holder : String) :
    LockTable :=
  t.filter (fun p => ¬ (p.1 = shard ∧ p.2.holder_id = holder))

/-- One operation against the lock table. -/
inductive LockOp : Type where
  | acquire (shard : Nat) (holder : String) (ttl now : Nat)
  | renew (shard : Nat) (holder : String) (ttl now : Nat)
  | release (shard : Nat) (holder : String)
deriving DecidableEq, Repr

def applyLockOp (t : LockTable) : LockOp → LockTable
  | .acquire s h ttl now => (try_acquire_shard_lock t s h ttl now).2
  | .renew s h ttl now => (renew_shard_lock t s h ttl now).2
  | .release s h => release_shard_lock t s h

def applyLockOps (t : LockTable) (ops : List LockOp) : LockTable :=
  ops.foldl applyLockOp t

/-- Rows of a shard that hold an effective lease at time `now`. -/
def effectiveLeases (t : LockTable) (shard now : Nat) : LockTable :=
  t.filter (fun p => decide (p.1 = shard ∧ now < p.2.expires_at))

/-! ### SHA-256 (hashlib.sha256)

The shard-routing code hashes names with hashlib's SHA-256; the standard
algorithm (FIPS 180-4) on byte lists, with 32-bit words as naturals
reduced mod 2^32. -/

def M32 : Nat := 2 ^ 32

def rotr32 (x n : Nat) : Nat :=
  ((x >>> n) ||| (x <<< (32 - n))) % M32

def shaCh (x y z : Nat) : Nat :=
  (x &&& y) ^^^ ((x ^^^ (M32 - 1)) &&& z)

def shaMaj (x y z : Nat) : Nat :=
  (x &&& y) ^^^ (x &&& z) ^^^ (y &&& z)

def bigSigma0 (x : Nat) : Nat := rotr32 x 2 ^^^ rotr32 x 13 ^^^ rotr32 x 22

def bigSigma1 (x : Nat) : Nat := rotr32 x 6 ^^^ rotr32 x 11 ^^^ rotr32 x 25

def smallSigma0 (x : Nat) : Nat := rotr32 x 7 ^^^ rotr32 x 18 ^^^ (x >>> 3)

def smallSigma1 (x : Nat) : Nat := rotr32 x 17 ^^^ rotr32 x 19 ^^^ (x >>> 10)

def shaK : List Nat :=
  [1116352408, 1899447441, 3049323471, 3921009573, 961987163,
   1508970993, 2453635748, 2870763221, 3624381080, 310598401,
   607225278, 1426881987, 1925078388, 2162078206, 2614888103,
   3248222580, 3835390401, 4022224774, 264347078, 604807628,
   770255983, 1249150122, 1555081692, 1996064986, 2554220882,
   2821834349, 2952996808, 3210313671, 3336571891, 3584528711,
   113926993, 338241895, 666307205, 773529912, 1294757372,
   1396182291, 1695183700, 1986661051, 2177026350, 2456956037,
   2730485921, 2820302411, 3259730800, 3345764771, 3516065817,
   3600352804, 4094571909, 275423344, 430227734, 506948616,
   659060556, 883997877, 958139571, 1322822218, 1537002063,
   1747873779, 1955562222, 2024104815, 2227730452, 2361852424,
   2428436474, 2756734187, 3204031479, 3329325298]

def shaH0 : List Nat :=
  [1779033703, 3144134277, 1013904242, 2773480762,
   1359893119, 2600822924, 528734635, 1541459225]

/-- Big-endian value of a byte list. -/
def beVal (bs : List Nat) : Nat :=
  bs.foldl (fun a b => a * 256 + b) 0

/-- Extend the 16 message words of a block to the 64-word schedule. -/
def shaSchedule (w16 : List Nat) : List Nat :=
  (List.range 48).foldl
    (fun w _ =>
      let n := w.length
      let a := w.getD (n - 16) 0
      let b := w.getD (n - 15) 0
      let c := w.getD (n - 7) 0
      let d := w.getD (n - 2) 0
      w ++ [(smallSigma1 d + c + smallSigma0 b + a) % M32])
    w16

def shaRound (st : List Nat) (kw : Nat × Nat) : List Nat :=
  match st with
  | [a, b, c, d, e, f, g, h] =>
      let t1 := (h + bigSigma1 e + shaCh e f g + kw.1 + kw.2) % M32
      let t2 := (bigSigma0 a + shaMaj a b c) % M32
      [(t1 + t2) % M32, a, b, c, (d + t1) % M32, e, f, g]
  | _ => st

def shaBlock (hv : List Nat) (block : List Nat) : List Nat :=
  let w := shaSchedule block
  let st := (shaK.zip w).foldl shaRound hv
  (hv.zip st).map (fun p => (p.1 + p.2) % M32)

/-- SHA-256 padding: 0x80, zeros to 56 mod 64, 8-byte big-endian bit length. -/
def shaPad (msg : List Nat) : List Nat :=
  let L := msg.length
  let z := (64 + 56 - (L + 1) % 64) % 64
  msg ++ [0x80] ++ List.replicate z 0 ++ (bytesLE 8 (8 * L)).reverse

/-- Split padded input into blocks of sixteen 32-bit big-endian words
(fuel-based recursion; each step drops 64 bytes, so fuel equal to the
byte count never runs out). -/
def shaBlocksGo : Nat → List Nat → List (List Nat)
  | _, [] => []
  | 0, _ :: _ => []
  | fuel + 1, b0 :: l2 =>
      let l := b0 :: l2
      ((List.range 16).map (fun i => beVal (slice l (4 * i) 4))) ::
        shaBlocksGo fuel (l.drop 64)

def shaBlocks (l : List Nat) : List (List Nat) :=
  shaBlocksGo l.length l

/-- hashlib.sha256(msg).digest() as a list of 32 bytes. -/
def sha256 (msg : List Nat) : List Nat :=
  let hv := (shaBlocks (shaPad msg)).foldl shaBlock shaH0
  (hv.map (fun wd => (bytesLE 4 wd).reverse)).flatten

/-! ### Hash routing (src/src/des/assignment/hash_routing.py) -/

/-- int.from_bytes(sha256(value.encode()).digest(), "big"). -/
def sha256Int (value : String) : Nat :=
  beVal (sha256 (strBytes value))

/-- consistent_hash(value, n_bits): the most significant n_bits of the
SHA-256 digest; n_bits outside [1, 256] raises ValueError. -/
def consistent_hash (value : String) (n_bits : Nat) : Except PyErr Nat :=
  if n_bits = 0 ∨ 256 < n_bits then .error .valueError
  else .ok ((sha256Int value >>> (256 - n_bits)) &&& (2 ^ n_bits - 1))

/-! ### Snowflake names (src/src/des/utils/snowflake_name.py)

Only the pure formatting path is modelled: given the 48-bit value F the
generator produced, next_name renders
`<prefix>_<YYYYMMDD>_(<F:012X>_<checksum:02X>)`. -/

def hexUDigit (n : Nat) : Char :=
  if n < 10 then Char.ofNat (48 + n) else Char.ofNat (55 + n)

def hexDigitsUGo : Nat → Nat → List Char
  | 0, _ => []
  | fuel + 1, n =>
      if n = 0 then [] else hexDigitsUGo fuel (n / 16) ++ [hexUDigit (n % 16)]

/-- Hex digits of n, most significant first (fuel-based; n itself always
exceeds the digit count). -/
def hexDigitsU (n : Nat) : List Char :=
  hexDigitsUGo n n

/-- f"{n:0<width>X}". -/
def hexU (width n : Nat) : String :=
  ⟨List.replicate (width - (hexDigitsU n).length) '0' ++ hexDigitsU n⟩

/-- SnowflakeNameGenerator._checksum_byte: sum of the six big-endian bytes
of F, mod 256 (the sum of the bytes does not depend on their order). -/
def checksum_byte (f : Nat) : Nat :=
  ((bytesLE 6 f).foldl (· + ·) 0) % 256

/-- The 48-bit compose step of _next_f48:
F = ((t_ms & (2^wrap_bits - 1)) << 16) | ((node_id & 0xFF) << 8) | (seq & 0xFF),
truncated to 48 bits. -/
def composeF (wrap_bits t_ms node_id seq : Nat) : Nat :=
  ((((t_ms &&& (2 ^ wrap_bits - 1)) <<< 16) |||
    ((node_id &&& 255) <<< 8) ||| (seq &&& 255)) &&& (2 ^ 48 - 1))

/-- SnowflakeNameGenerator.next_name given the day string and the 48-bit
value F returned by _next_f48. -/
def next_name (pre day_str : String) (f : Nat) : String :=
  pre ++ "_" ++ day_str ++ "_(" ++ hexU 12 f ++ "_" ++ hexU 2 (checksum_byte f) ++ ")"

/-! ### Retriever container-key building
(src/src/des/retriever/file_handler.py) -/

def isDigitB (c : Char) : Bool :=
  decide (48 ≤ c.toNat ∧ c.toNat ≤ 57)

/-- re.search(r"_(\d{8})_", name): first position where an underscore is
followed by exactly eight digits and another underscore; returns the
digit group. -/
def findDayGroup : List Char → Option (List Char)
  | [] => none
  | c :: rest =>
      if hc : c = '_' then
        let ds := rest.take 8
        match rest.drop 8 with
        | u :: _ =>
            if ds.length = 8 ∧ ds.all isDigitB ∧ u = '_' then some ds
            else findDayGroup rest
        | [] => findDayGroup rest
      else findDayGroup rest

def digitsVal (ds : List Char) : Nat :=
  ds.foldl (fun a c => a * 10 + (c.toNat - 48)) 0

def isLeapYear (y : Nat) : Bool :=
  decide ((y % 4 = 0 ∧ y % 100 ≠ 0) ∨ y % 400 = 0)

def daysInMonth (y m : Nat) : Nat :=
  if m = 2 then (if isLeapYear y then 29 else 28)
  else if m = 4 ∨ m = 6 ∨ m = 9 ∨ m = 11 then 30
  else 31

/-- Zero-padded decimal of width 2, f"{n:02d}". -/
def pad2 (n : Nat) : String :=
  if n < 10 then "0" ++ toString n else toString n

/-- Zero-padded decimal of width 4 (for years; FileHandler only ever
formats years parsed from four digits, and the claims assume y ≥ 1000
where strftime("%Y") agrees with four digits). -/
def pad4 (n : Nat) : String :=
  if n < 10 then "000" ++ toString n
  else if n < 100 then "00" ++ toString n
  else if n < 1000 then "0" ++ toString n
  else toString n

/-- FileHandler._parse_day: find the YYYYMMDD group, validate it as a date
(datetime.strptime), reformat as YYYY-MM-DD. -/
def parse_day (file_name : String) : Except PyErr String :=
  match findDayGroup file_name.data with
  | none => .error .valueError
  | some ds =>
      let y := digitsVal (ds.take 4)
      let m := digitsVal ((ds.drop 4).take 2)
      let d := digitsVal (ds.drop 6)
      if 1 ≤ y ∧ 1 ≤ m ∧ m ≤ 12 ∧ 1 ≤ d ∧ d ≤ daysInMonth y m then
        .ok (pad4 y ++ "-" ++ pad2 m ++ "-" ++ pad2 d)
      else .error .valueError

/-- s.rstrip("/"). -/
def rstripSlash (s : String) : String :=
  ⟨(s.data.reverse.dropWhile (fun c => c = '/')).reverse⟩

/-- FileHandler.get_container_key: day from the name, shard id from
consistent_hash, key f"{day}/shard_{shard_id:02d}.des" with the optional
prefix. -/
def get_container_key (s3Pre : String) (shard_bits : Nat) (file_name : String) :
    Except PyErr String :=
  match parse_day file_name with
  | .error e => .error e
  | .ok day_part =>
      match consistent_hash file_name shard_bits with
      | .error e => .error e
      | .ok shard_id =>
          let key := day_part ++ "/shard_" ++ pad2 shard_id ++ ".des"
          .ok (if s3Pre ≠ "" then rstripSlash s3Pre ++ "/" ++ key else key)

/-! ### Crash recovery: partial containers
(src/src/des/packer/recovery.py, cleanup_partial_containers) -/

structure ContainerRow : Type where
  id : Nat
  shard_id : Nat
  day : String
  status : String
  s3_key : String
  file_count : Nat
  data_bytes : Nat
  created_at : Int
  finalized_at : Option Int
deriving DecidableEq, Repr

/-- The object store as key → object bytes. -/
abbrev S3Store := List (String × List Nat)

def s3_exists (s3 : S3Store) (k : String) : Bool :=
  (dictGet s3 k).isSome

def removeKey (s3 : S3Store) (k : String) : S3Store :=
  s3.filter (fun p => decide (p.1 ≠ k))

/-- CrashRecoveryManager._validate_container: HEAD (absent → invalid),
size check, then S3DesReader construction, whose __init__ parses the
72-byte footer; on success the footer's file_count is reported. -/
def validate_container (s3 : S3Store) (k : String) : Bool × Option Nat :=
  match dictGet s3 k with
  | none => (false, none)
  | some bytes =>
      if bytes.length < MIN_DES_FILE_SIZE then (false, none)
      else
        match parse_footer (slice bytes (bytes.length - FOOTER_SIZE) FOOTER_SIZE) with
        | .ok f => (true, some f.file_count)
        | .error _ => (false, none)

/-- Selection criterion of the sweep: status 'writing' and created_at
older than now − grace. -/
def partialSelected (r : ContainerRow) (cutoff : Int) : Bool :=
  decide (r.status = "writing" ∧ r.created_at < cutoff)

/-- The per-row action of cleanup_partial_containers. -/
def processPartial (s3 : S3Store) (now : Int) (r : ContainerRow) :
    ContainerRow × S3Store :=
  if s3_exists s3 r.s3_key then
    let vr := validate_container s3 r.s3_key
    if vr.1 then
      ({ r with
          status := "uploaded"
          finalized_at := some now
          file_count := vr.2.getD r.file_count }, s3)
    else
      ({ r with status := "failed", finalized_at := some now },
        removeKey s3 r.s3_key)
  else
    ({ r with status := "failed", finalized_at := some now }, s3)

/-- CrashRecoveryManager.cleanup_partial_containers: select rows in
status 'writing' older than the grace cutoff, then act on each in order
(the deletion of a corrupt object is visible to later rows).  Returns the
updated table, the updated store and the action count. -/
def cleanup_partial_containers (db : List ContainerRow) (s3 : S3Store)
    (now cutoff : Int) : List ContainerRow × S3Store × Nat :=
  match db with
  | [] => ([], s3, 0)
  | r :: rest =>
      if partialSelected r cutoff then
        ((processPartial s3 now r).1 ::
          (cleanup_partial_containers rest (processPartial s3 now r).2
            now cutoff).1,
         (cleanup_partial_containers rest (processPartial s3 now r).2
            now cutoff).2.1,
         (cleanup_partial_containers rest (processPartial s3 now r).2
            now cutoff).2.2 + 1)
      else
        (r :: (cleanup_partial_containers rest s3 now cutoff).1,
         (cleanup_partial_containers rest s3 now cutoff).2.1,
         (cleanup_partial_containers rest s3 now cutoff).2.2)

/-! ### Specification-side definitions

Region-boundary invariants of a valid container footer, as §3.1 of the
specification states them; used to compare with what the reader actually
checks. -/

/-- Modelled from the spec, §3.1: the region-boundary invariants of a
container of a given object size. -/
def specFooterInvariants (f : Footer) (object_size : Nat) : Prop :=
  f.data_start = 16 ∧
  f.data_start + f.data_length = f.meta_start ∧
  f.meta_start + f.meta_length = f.index_start ∧
  f.index_start + f.index_length = object_size - 72

instance (f : Footer) (n : Nat) : Decidable (specFooterInvariants f n) := by
  unfold specFooterInvariants
  infer_instance

/-! ## Claims -/

/-! ### C7: snowflake names versus the writer's filename validation -/

theorem mem_data_append_right (s t : String) (c : Char) (h : c ∈ t.data) :
    c ∈ (s ++ t).data := by
  rw [String.data_append]
  exact List.mem_append_right _ h

theorem mem_data_append_left (s t : String) (c : Char) (h : c ∈ s.data) :
    c ∈ (s ++ t).data := by
  rw [String.data_append]
  exact List.mem_append_left _ h

theorem mem_data_next_name (pre day : String) (f : Nat) :
    '(' ∈ (next_name pre day f).data := by
  unfold next_name
  apply mem_data_append_left
  apply mem_data_append_left
  apply mem_data_append_left
  apply mem_data_append_left
  apply mem_data_append_right
  decide

/-- C7: every name the snowflake generator emits contains the parentheses
of the `<PREFIX>_<YYYYMMDD>_(<F12>_<C2>)` template, and '(' is outside
the character set [a-zA-Z0-9_.-] that DesWriter._validate_filename
enforces, so DesWriter.add_file rejects every generated name with a
ValueError.  The claim (generated names are accepted) is what both the
spec and the repository's own tests intend; the code contradicts it. -/
theorem c7_generated_names_rejected (pre day : String) (f : Nat) :
    validate_filename (next_name pre day f) = .error .valueError := by
  have hmem : '(' ∈ (next_name pre day f).data := mem_data_next_name pre day f
  unfold validate_filename
  have hne : ¬ (next_name pre day f = "") := by
    intro h
    rw [h] at hmem
    simp at hmem
  rw [if_neg hne]
  by_cases hlen : MAX_FILENAME_LENGTH < (strBytes (next_name pre day f)).length
  · rw [if_pos hlen]
  · rw [if_neg hlen, if_pos]
    intro hall
    have := List.all_eq_true.mp hall _ hmem
    simp [allowedChar] at this

/-- C7 witness at a concrete generated name. -/
theorem c7_generated_names_rejected_witness :
    validate_filename (next_name "TEST" "20250101" 416) = .error .valueError :=
  c7_generated_names_rejected "TEST" "20250101" 416

/-! ### C2: footer strictness on read

DesReader._parse_footer (and the identical S3DesReader._parse_footer)
checks only magic and version.  The §3.1 region-boundary invariants are
not checked, so a byte flip that moves an offset is accepted.  The input
below reproduces tests/test_core_des_reader_writer.py::
test_des_reader_overlapping_regions: a one-file container whose footer
data_length field is overwritten with 999999999. -/

/-- The container of the repository's own corruption test: one file
"a.txt" = b"hello" with meta {"mime": "text/plain"}. -/
def c2Container : List Nat :=
  match addAll (newWriter 100 none)
      [("a.txt", [104, 101, 108, 108, 111], [("mime", .s "text/plain")])] with
  | .error _ => []
  | .ok w => closeBytes w

/-- c2Container with the footer's data_length field (8 bytes at offset
size − 48) overwritten by 999999999, as the repository test does. -/
def c2Corrupted : List Nat :=
  c2Container.take (c2Container.length - 48) ++ bytesLE 8 999999999 ++
    c2Container.drop (c2Container.length - 40)

/-- The footer the reader actually accepts on the corrupted object. -/
def c2AcceptedFooter : Footer :=
  match mkReader c2Corrupted [] with
  | .ok r => r.footer
  | .error _ => unpackFooter []

/-! ### C3: shard lock protocol -/

theorem lookupShard_setShard_self (t : LockTable) (s : Nat) (r : LockRow) :
    lookupShard (setShard t s r) s = some r := by
  induction t with
  | nil => simp [setShard, lookupShard]
  | cons p rest ih =>
      obtain ⟨s0, r0⟩ := p
      by_cases hs : s0 = s
      · simp [setShard, hs, lookupShard]
      · simp [setShard, hs, lookupShard, ih]

theorem lookupShard_setShard_other (t : LockTable) (s s2 : Nat) (r : LockRow)
    (h : s2 ≠ s) : lookupShard (setShard t s r) s2 = lookupShard t s2 := by
  have h2 : ¬ (s = s2) := Ne.symm h
  induction t with
  | nil => simp [setShard, lookupShard, h2]
  | cons p rest ih =>
      obtain ⟨s0, r0⟩ := p
      by_cases hs : s0 = s
      · subst hs
        simp [setShard, lookupShard, h2]
      · simp only [setShard, hs, if_false]
        by_cases hs2 : s0 = s2 <;> simp [lookupShard, hs2, ih]

theorem keys_setShard (t : LockTable) (s : Nat) (r : LockRow) :
    (setShard t s r).map (·.1) = t.map (·.1) ∨
    ((setShard t s r).map (·.1) = t.map (·.1) ++ [s] ∧ s ∉ t.map (·.1)) := by
  induction t with
  | nil => right; simp [setShard]
  | cons p rest ih =>
      obtain ⟨s0, r0⟩ := p
      by_cases hs : s0 = s
      · left
        simp [setShard, hs]
      · rcases ih with h1 | ⟨h1, h2⟩
        · left
          simp [setShard, hs, h1]
        · right
          refine ⟨by simp [setShard, hs, h1], ?_⟩
          simp only [List.map_cons, List.mem_cons]
          rintro (h3 | h3)
          · exact hs h3.symm
          · exact h2 h3

theorem keys_setShard_unique (t : LockTable) (s : Nat) (r : LockRow)
    (h : LockKeysUnique t) : LockKeysUnique (setShard t s r) := by
  unfold LockKeysUnique at h ⊢
  rcases keys_setShard t s r with h1 | ⟨h1, h2⟩
  · rw [h1]; exact h
  · rw [h1, List.nodup_append]
    refine ⟨h, List.nodup_singleton s, ?_⟩
    intro a ha hb
    have haS : a = s := by simpa using hb
    exact h2 (haS ▸ ha)

theorem lockKeysUnique_filter (t : LockTable) (p : Nat × LockRow → Bool)
    (h : LockKeysUnique t) : LockKeysUnique (t.filter p) := by
  unfold LockKeysUnique at h ⊢
  exact h.sublist ((List.filter_sublist t).map (·.1))

theorem applyLockOp_keys_unique (t : LockTable) (op : LockOp)
    (h : LockKeysUnique t) : LockKeysUnique (applyLockOp t op) := by
  cases op with
  | acquire s h2 ttl now =>
      simp only [applyLockOp, try_acquire_shard_lock]
      cases hl : lookupShard t s with
      | none => exact keys_setShard_unique t s _ h
      | some r =>
          by_cases hc : r.expires_at < now ∨ r.holder_id = h2
          · simp only [if_pos hc]
            exact keys_setShard_unique t s _ h
          · simp only [if_neg hc]
            exact h
  | renew s h2 ttl now =>
      simp only [applyLockOp, renew_shard_lock]
      cases hl : lookupShard t s with
      | none => exact h
      | some r =>
          by_cases hc : r.holder_id = h2 ∧ now < r.expires_at
          · simp only [if_pos hc]
            exact keys_setShard_unique t s _ h
          · simp only [if_neg hc]
            exact h
  | release s h2 =>
      simp only [applyLockOp, release_shard_lock]
      exact lockKeysUnique_filter t _ h

theorem applyLockOps_keys_unique (t : LockTable) (ops : List LockOp)
    (h : LockKeysUnique t) : LockKeysUnique (applyLockOps t ops) := by
  induction ops generalizing t with
  | nil => exact h
  | cons op rest ih =>
      exact ih _ (applyLockOp_keys_unique t op h)

theorem effectiveLeases_le_one (t : LockTable) (s now : Nat)
    (h : LockKeysUnique t) : (effectiveLeases t s now).length ≤ 1 := by
  unfold effectiveLeases
  induction t with
  | nil => simp
  | cons p rest ih =>
      obtain ⟨s0, r0⟩ := p
      unfold LockKeysUnique at h
      simp only [List.map_cons, List.nodup_cons] at h
      by_cases hm : s0 = s ∧ now < r0.expires_at
      · have hrest : rest.filter (fun p => decide (p.1 = s ∧ now < p.2.expires_at)) = [] := by
          apply List.filter_eq_nil_iff.mpr
          intro q hq
          simp only [decide_eq_true_eq, not_and]
          intro hq1
          exfalso
          apply h.1
          have hmm : q.1 ∈ rest.map (·.1) := List.mem_map_of_mem (·.1) hq
          rwa [hq1, ← hm.1] at hmm
        rw [List.filter_cons_of_pos (by simpa using hm), hrest]
        simp
      · rw [List.filter_cons_of_neg (by simpa using hm)]
        exact ih h.2

/-- The row try_acquire_shard_lock upserts on success. -/
def acquiredRow (h2 : String) (ttl now : Nat) : LockRow :=
  { holder_id := h2, acquired_at := now, heartbeat_at := now
    expires_at := now + ttl }

theorem try_acquire_eq_of_none (t : LockTable) (s : Nat) (h2 : String)
    (ttl now : Nat) (hl : lookupShard t s = none) :
    try_acquire_shard_lock t s h2 ttl now =
      (true, setShard t s (acquiredRow h2 ttl now)) := by
  simp [try_acquire_shard_lock, hl, acquiredRow]

theorem try_acquire_eq_of_guard (t : LockTable) (s : Nat) (h2 : String)
    (ttl now : Nat) (r : LockRow) (hl : lookupShard t s = some r)
    (hc : r.expires_at < now ∨ r.holder_id = h2) :
    try_acquire_shard_lock t s h2 ttl now =
      (true, setShard t s (acquiredRow h2 ttl now)) := by
  simp [try_acquire_shard_lock, hl, hc, acquiredRow]

theorem try_acquire_eq_of_reject (t : LockTable) (s : Nat) (h2 : String)
    (ttl now : Nat) (r : LockRow) (hl : lookupShard t s = some r)
    (hc : ¬ (r.expires_at < now ∨ r.holder_id = h2)) :
    try_acquire_shard_lock t s h2 ttl now = (false, t) := by
  simp [try_acquire_shard_lock, hl, hc]

theorem try_acquire_success_iff (t : LockTable) (s : Nat) (h2 : String)
    (ttl now : Nat) :
    ((try_acquire_shard_lock t s h2 ttl now).1 = true ↔
      ∃ r, lookupShard (try_acquire_shard_lock t s h2 ttl now).2 s = some r ∧
        r.holder_id = h2) := by
  cases hl : lookupShard t s with
  | none =>
      rw [try_acquire_eq_of_none t s h2 ttl now hl]
      refine ⟨fun _ => ⟨acquiredRow h2 ttl now, ?_, rfl⟩, fun _ => rfl⟩
      exact lookupShard_setShard_self t s _
  | some r =>
      by_cases hc : r.expires_at < now ∨ r.holder_id = h2
      · rw [try_acquire_eq_of_guard t s h2 ttl now r hl hc]
        refine ⟨fun _ => ⟨acquiredRow h2 ttl now, ?_, rfl⟩, fun _ => rfl⟩
        exact lookupShard_setShard_self t s _
      · rw [try_acquire_eq_of_reject t s h2 ttl now r hl hc]
        constructor
        · intro hfalse
          exact absurd hfalse (by simp)
        · rintro ⟨r2, hr2, hown⟩
          have hr2' : lookupShard t s = some r2 := hr2
          rw [hl] at hr2'
          cases hr2'
          exact absurd (Or.inr hown) hc

theorem try_acquire_success_precondition (t : LockTable) (s : Nat) (h2 : String)
    (ttl now : Nat) (hs : (try_acquire_shard_lock t s h2 ttl now).1 = true) :
    lookupShard t s = none ∨
      ∃ r, lookupShard t s = some r ∧ (r.expires_at < now ∨ r.holder_id = h2) := by
  cases hl : lookupShard t s with
  | none => exact Or.inl rfl
  | some r =>
      right
      refine ⟨r, rfl, ?_⟩
      by_cases hc : r.expires_at < now ∨ r.holder_id = h2
      · exact hc
      · rw [try_acquire_eq_of_reject t s h2 ttl now r hl hc] at hs
        exact absurd hs (by simp)

theorem renew_success_iff (t : LockTable) (s : Nat) (h2 : String) (ttl now : Nat) :
    ((renew_shard_lock t s h2 ttl now).1 = true ↔
      ∃ r, lookupShard t s = some r ∧ r.holder_id = h2 ∧ now < r.expires_at) := by
  cases hl : lookupShard t s with
  | none =>
      have he : renew_shard_lock t s h2 ttl now = (false, t) := by
        simp [renew_shard_lock, hl]
      rw [he]
      constructor
      · intro hfalse
        exact absurd hfalse (by simp)
      · rintro ⟨r2, hr2, _, _⟩
        cases hr2
  | some r =>
      by_cases hc : r.holder_id = h2 ∧ now < r.expires_at
      · have he : (renew_shard_lock t s h2 ttl now).1 = true := by
          simp [renew_shard_lock, hl, hc]
        rw [he]
        exact ⟨fun _ => ⟨r, rfl, hc⟩, fun _ => rfl⟩
      · have he : renew_shard_lock t s h2 ttl now = (false, t) := by
          simp only [renew_shard_lock, hl, if_neg hc]
        rw [he]
        constructor
        · intro hfalse
          exact absurd hfalse (by simp)
        · rintro ⟨r2, hr2, hown, hexp⟩
          cases hr2
          exact absurd ⟨hown, hexp⟩ hc

/-- C3: over any operation sequence the shard-lock table keeps at most
one row per shard, hence at most one effective lease per shard at any
time; try_acquire succeeds exactly when the shard's row afterwards is
owned by the caller, which is possible only from no row, an expired row
or the caller's own row; renew succeeds exactly when an unexpired row of
that holder existed; and after expiry any other holder's try_acquire
succeeds while the old holder's renew fails. -/
theorem c3_shard_lock_protocol :
    (∀ (t0 : LockTable) (ops : List LockOp), LockKeysUnique t0 →
      LockKeysUnique (applyLockOps t0 ops) ∧
        ∀ s now, (effectiveLeases (applyLockOps t0 ops) s now).length ≤ 1) ∧
    (∀ (t : LockTable) (s : Nat) (h : String) (ttl now : Nat),
      ((try_acquire_shard_lock t s h ttl now).1 = true ↔
        ∃ r, lookupShard (try_acquire_shard_lock t s h ttl now).2 s = some r ∧
          r.holder_id = h) ∧
      ((try_acquire_shard_lock t s h ttl now).1 = true →
        lookupShard t s = none ∨
          ∃ r, lookupShard t s = some r ∧ (r.expires_at < now ∨ r.holder_id = h)) ∧
      ((renew_shard_lock t s h ttl now).1 = true ↔
        ∃ r, lookupShard t s = some r ∧ r.holder_id = h ∧ now < r.expires_at)) ∧
    (∀ (t : LockTable) (s : Nat) (r : LockRow) (now : Nat),
      lookupShard t s = some r → r.expires_at < now →
      ∀ (h2 hOld : String) (ttl : Nat),
        (try_acquire_shard_lock t s h2 ttl now).1 = true ∧
        (renew_shard_lock t s hOld ttl now).1 = false) := by
  refine ⟨?_, ?_, ?_⟩
  · intro t0 ops h
    have hu := applyLockOps_keys_unique t0 ops h
    exact ⟨hu, fun s now => effectiveLeases_le_one _ s now hu⟩
  · intro t s h ttl now
    exact ⟨try_acquire_success_iff t s h ttl now,
      try_acquire_success_precondition t s h ttl now,
      renew_success_iff t s h ttl now⟩
  · intro t s r now hl hexp h2 hOld ttl
    constructor
    · simp [try_acquire_shard_lock, hl, hexp]
    · cases hren : (renew_shard_lock t s hOld ttl now).1 with
      | false => rfl
      | true =>
          obtain ⟨r2, hr2, _, hexp2⟩ := (renew_success_iff t s hOld ttl now).mp hren
          rw [hl] at hr2
          cases hr2
          omega

/-- C3 witness: scenario S6 — holder A holds shard 0 with expiry 10; at
time 11 holder B's try_acquire succeeds and A's renew fails, and
uniqueness is preserved over a concrete operation sequence. -/
theorem c3_shard_lock_protocol_witness :
    (try_acquire_shard_lock [(0, ⟨"A", 0, 0, 10⟩)] 0 "B" 10 11).1 = true ∧
    (renew_shard_lock [(0, ⟨"A", 0, 0, 10⟩)] 0 "A" 10 11).1 = false ∧
    LockKeysUnique (applyLockOps []
      [.acquire 0 "A" 10 0, .renew 0 "A" 10 5, .acquire 0 "B" 10 11,
       .release 0 "B"]) :=
  ⟨(c3_shard_lock_protocol.2.2 [(0, ⟨"A", 0, 0, 10⟩)] 0 ⟨"A", 0, 0, 10⟩ 11
      (by decide) (by decide) "B" "A" 10).1,
   (c3_shard_lock_protocol.2.2 [(0, ⟨"A", 0, 0, 10⟩)] 0 ⟨"A", 0, 0, 10⟩ 11
      (by decide) (by decide) "B" "A" 10).2,
   (c3_shard_lock_protocol.1 [] _ (by decide)).1⟩

/-! ### C6: grouping of batch reads

Structural lemmas about _group_entries and the ranges _fetch_batches
issues. -/

theorem groupGo_flatten (g : Nat) (rest : List IndexEntry) :
    ∀ (cur : List IndexEntry) (lastE : IndexEntry),
      (groupGo g cur lastE rest).flatten = cur.reverse ++ rest := by
  induction rest with
  | nil =>
      intro cur lastE
      simp [groupGo]
  | cons e rest ih =>
      intro cur lastE
      unfold groupGo
      by_cases hgap : gapOK g lastE e
      · rw [if_pos hgap, ih]
        simp
      · rw [if_neg hgap]
        simp [ih]

theorem groupEntries_flatten (es : List IndexEntry) (g : Nat) :
    (groupEntries es g).flatten = es := by
  cases es with
  | nil => rfl
  | cons e rest => simpa using groupGo_flatten g rest [e] e

theorem groupGo_ne_nil (g : Nat) (rest : List IndexEntry) :
    ∀ (cur : List IndexEntry) (lastE : IndexEntry), cur ≠ [] →
      ∀ b ∈ groupGo g cur lastE rest, b ≠ [] := by
  induction rest with
  | nil =>
      intro cur lastE hcur b hb
      simp only [groupGo, List.mem_singleton] at hb
      subst hb
      simpa using hcur
  | cons e rest ih =>
      intro cur lastE hcur b hb
      unfold groupGo at hb
      by_cases hgap : gapOK g lastE e
      · rw [if_pos hgap] at hb
        exact ih (e :: cur) e (by simp) b hb
      · rw [if_neg hgap] at hb
        rcases List.mem_cons.mp hb with hb | hb
        · subst hb
          simpa using hcur
        · exact ih [e] e (by simp) b hb

theorem groupGo_chain (g : Nat) (rest : List IndexEntry) :
    ∀ (cur : List IndexEntry) (lastE : IndexEntry),
      cur.head? = some lastE → List.Chain' (gapOK g) cur.reverse →
      ∀ b ∈ groupGo g cur lastE rest, List.Chain' (gapOK g) b := by
  induction rest with
  | nil =>
      intro cur lastE _ hchain b hb
      simp only [groupGo, List.mem_singleton] at hb
      subst hb
      exact hchain
  | cons e rest ih =>
      intro cur lastE hhead hchain b hb
      unfold groupGo at hb
      by_cases hgap : gapOK g lastE e
      · rw [if_pos hgap] at hb
        refine ih (e :: cur) e rfl ?_ b hb
        rw [List.reverse_cons, List.chain'_append]
        refine ⟨hchain, List.chain'_singleton e, ?_⟩
        intro x hx y hy
        rw [List.getLast?_reverse, hhead] at hx
        cases hx
        cases hy
        exact hgap
      · rw [if_neg hgap] at hb
        rcases List.mem_cons.mp hb with hb | hb
        · subst hb
          exact hchain
        · exact ih [e] e rfl (List.chain'_singleton e) b hb

theorem groupGo_first_head (g : Nat) (rest : List IndexEntry) :
    ∀ (cur : List IndexEntry) (lastE : IndexEntry), cur ≠ [] →
      ∃ b bs, groupGo g cur lastE rest = b :: bs ∧ b.head? = cur.getLast? := by
  induction rest with
  | nil =>
      intro cur lastE _
      exact ⟨cur.reverse, [], rfl, List.head?_reverse cur⟩
  | cons e rest ih =>
      intro cur lastE hcur
      unfold groupGo
      by_cases hgap : gapOK g lastE e
      · rw [if_pos hgap]
        obtain ⟨b, bs, hgo, hhead⟩ := ih (e :: cur) e (by simp)
        refine ⟨b, bs, hgo, ?_⟩
        rw [hhead]
        obtain ⟨c, cs, rfl⟩ := List.exists_cons_of_ne_nil hcur
        rfl
      · rw [if_neg hgap]
        exact ⟨cur.reverse, _, rfl, List.head?_reverse cur⟩

/-- Adjacent runs are separated by a gap larger than max_gap_size. -/
def runsSeparated (g : Nat) (batches : List (List IndexEntry)) : Prop :=
  List.Chain' (fun b1 b2 => ∀ x ∈ b1.getLast?, ∀ y ∈ b2.head?, ¬ gapOK g x y)
    batches

theorem groupGo_separated (g : Nat) (rest : List IndexEntry) :
    ∀ (cur : List IndexEntry) (lastE : IndexEntry), cur.head? = some lastE →
      runsSeparated g (groupGo g cur lastE rest) := by
  induction rest with
  | nil =>
      intro cur lastE _
      exact List.chain'_singleton _
  | cons e rest ih =>
      intro cur lastE hhead
      unfold groupGo
      by_cases hgap : gapOK g lastE e
      · rw [if_pos hgap]
        exact ih (e :: cur) e rfl
      · rw [if_neg hgap]
        obtain ⟨b, bs, hgo, hbh⟩ := groupGo_first_head g rest [e] e (by simp)
        rw [hgo]
        unfold runsSeparated
        rw [List.chain'_cons]
        refine ⟨?_, ?_⟩
        · intro x hx y hy
          rw [List.getLast?_reverse, hhead] at hx
          cases hx
          rw [hbh] at hy
          cases hy
          exact hgap
        · have := ih [e] e rfl
          unfold runsSeparated at this
          rwa [hgo] at this

theorem groupGo_single_run (g : Nat) (rest : List IndexEntry) :
    ∀ (cur : List IndexEntry) (lastE : IndexEntry),
      List.Chain' (gapOK g) (lastE :: rest) →
      groupGo g cur lastE rest = [cur.reverse ++ rest] := by
  induction rest with
  | nil =>
      intro cur lastE _
      simp [groupGo]
  | cons e rest ih =>
      intro cur lastE hchain
      rw [List.chain'_cons] at hchain
      unfold groupGo
      rw [if_pos hchain.1, ih (e :: cur) e hchain.2]
      simp

theorem groupEntries_single_run (es : List IndexEntry) (g : Nat)
    (hne : es ≠ []) (hchain : List.Chain' (gapOK g) es) :
    groupEntries es g = [es] := by
  obtain ⟨e, rest, rfl⟩ := List.exists_cons_of_ne_nil hne
  show groupGo g [e] e rest = [e :: rest]
  rw [groupGo_single_run g rest [e] e hchain]
  simp

/-- The range read of one run, `none` for an empty run (the source skips
empty batches). -/
def runRange (b : List IndexEntry) : Option (Nat × Nat) :=
  match b with
  | [] => none
  | f :: rest => some (batchRange f rest)

theorem fetchStep_snd (file : List Nat) (acc : Results × List (Nat × Nat))
    (batch : List IndexEntry) :
    (fetchStep file acc batch).2 = acc.2 ++ (runRange batch).toList := by
  cases batch with
  | nil => simp [fetchStep, runRange]
  | cons f rest => simp [fetchStep, runRange, batchRange]

theorem foldl_fetchStep_snd (file : List Nat) (batches : List (List IndexEntry)) :
    ∀ acc : Results × List (Nat × Nat),
      (batches.foldl (fetchStep file) acc).2 = acc.2 ++ batches.filterMap runRange := by
  induction batches with
  | nil =>
      intro acc
      simp
  | cons b bs ih =>
      intro acc
      rw [List.foldl_cons, ih (fetchStep file acc b), fetchStep_snd]
      cases hb : runRange b <;> simp [List.filterMap_cons, hb]

theorem fetchBatches_ranges (file : List Nat) (batches : List (List IndexEntry)) :
    (fetchBatches file batches).2 = batches.filterMap runRange := by
  unfold fetchBatches
  simpa using foldl_fetchStep_snd file batches (emptyResults, [])

/-- C6: get_files_batch resolves the internal names, sorts the entries by
data_offset (a permutation, pairwise sorted), partitions them into
non-empty runs whose internal gaps are at most max_gap_size while
adjacent runs are separated by larger gaps, and issues exactly one data
range read per run, the read covering
[first.data_offset, last.data_offset + last.data_length); when the sorted
entries are non-empty and all consecutive gaps are within max_gap_size,
exactly one data range read is issued. -/
theorem c6_batch_grouping (r : Reader) (idx : List (String × IndexEntry))
    (names : List String) (g : Nat) :
    (entriesForNames idx (splitNames idx names).1).Perm
      ((splitNames idx names).1.filterMap (dictGet idx)) ∧
    List.Pairwise (fun a b => a.data_offset ≤ b.data_offset)
      (entriesForNames idx (splitNames idx names).1) ∧
    (groupEntries (entriesForNames idx (splitNames idx names).1) g).flatten =
      entriesForNames idx (splitNames idx names).1 ∧
    (∀ b ∈ groupEntries (entriesForNames idx (splitNames idx names).1) g,
      b ≠ [] ∧ List.Chain' (gapOK g) b) ∧
    runsSeparated g (groupEntries (entriesForNames idx (splitNames idx names).1) g) ∧
    (get_files_batch_idx r idx names g).2 =
      (groupEntries (entriesForNames idx (splitNames idx names).1) g).filterMap
        runRange ∧
    (get_files_batch_idx r idx names g).2.length =
      (groupEntries (entriesForNames idx (splitNames idx names).1) g).length ∧
    (∀ (f : IndexEntry) (rest : List IndexEntry),
      entriesForNames idx (splitNames idx names).1 = f :: rest →
      List.Chain' (gapOK g) (f :: rest) →
      (get_files_batch_idx r idx names g).2 = [batchRange f rest]) := by
  have hperm := List.perm_insertionSort entryLE
    ((splitNames idx names).1.filterMap (dictGet idx))
  have hsorted := List.sorted_insertionSort entryLE
    ((splitNames idx names).1.filterMap (dictGet idx))
  have hranges : (get_files_batch_idx r idx names g).2 =
      (groupEntries (entriesForNames idx (splitNames idx names).1) g).filterMap
        runRange := by
    rw [← fetchBatches_ranges r.file]
    rfl
  have hne : ∀ b ∈ groupEntries (entriesForNames idx (splitNames idx names).1) g,
      b ≠ [] := by
    cases hse : entriesForNames idx (splitNames idx names).1 with
    | nil => simp [groupEntries]
    | cons e rest =>
        unfold groupEntries
        exact groupGo_ne_nil g rest [e] e (by simp)
  refine ⟨hperm, ?_, groupEntries_flatten _ g, ?_, ?_, hranges, ?_, ?_⟩
  · exact hsorted.imp (fun h => h)
  · intro b hb
    refine ⟨hne b hb, ?_⟩
    revert hb
    cases hse : entriesForNames idx (splitNames idx names).1 with
    | nil => simp [groupEntries]
    | cons e rest =>
        unfold groupEntries
        exact groupGo_chain g rest [e] e rfl (List.chain'_singleton e) b
  · cases hse : entriesForNames idx (splitNames idx names).1 with
    | nil => simp [groupEntries, runsSeparated]
    | cons e rest =>
        unfold groupEntries
        exact groupGo_separated g rest [e] e rfl
  · rw [hranges]
    have hlen : ∀ (l : List (List IndexEntry)), (∀ b ∈ l, b ≠ []) →
        (l.filterMap runRange).length = l.length := by
      intro l
      induction l with
      | nil => simp
      | cons b bs ih =>
          intro hb
          obtain ⟨f, rest, rfl⟩ := List.exists_cons_of_ne_nil (hb b (by simp))
          simp only [List.filterMap_cons, runRange, List.length_cons]
          rw [ih (fun x hx => hb x (by simp [hx]))]
    exact hlen _ hne
  · intro f rest hse hchain
    rw [hranges, hse, groupEntries_single_run (f :: rest) g (by simp) hchain]
    simp [runRange]

/-- Concrete entries for the C6 witness: two adjacent 8-byte files. -/
def c6EntryA : IndexEntry :=
  { name := "a", data_offset := 16, data_length := 8, meta_offset := 0
    meta_length := 0, flags := 0 }

def c6EntryB : IndexEntry :=
  { name := "b", data_offset := 24, data_length := 8, meta_offset := 0
    meta_length := 0, flags := 0 }

def c6Reader : Reader :=
  { file := headerBytes ++ List.replicate 16 5 ++ List.replicate 72 0
    footer := unpackFooter (List.replicate 72 0)
    ext := [] }

/-- C6 witness: scenario S3 in miniature — two adjacent internal files
with max_gap_size 100 are fetched through exactly one range read covering
[16, 32). -/
theorem c6_batch_grouping_witness :
    (get_files_batch_idx c6Reader [("a", c6EntryA), ("b", c6EntryB)]
      ["a", "b"] 100).2 = [batchRange c6EntryA [c6EntryB]] ∧
    batchRange c6EntryA [c6EntryB] = (16, 16) :=
  ⟨(c6_batch_grouping c6Reader [("a", c6EntryA), ("b", c6EntryB)] ["a", "b"]
      100).2.2.2.2.2.2.2 c6EntryA [c6EntryB] (by decide)
      (by
        rw [List.chain'_cons]
        exact ⟨by decide, List.chain'_singleton _⟩),
   by decide⟩

/-! ### C4: batch read equals individual reads

Characterisation of splitNames, of the update folds, and of the batch
fetch; then the pointwise equivalence with get_file. -/

theorem mem_splitNames_internal (idx : List (String × IndexEntry))
    (names : List String) (n : String) :
    n ∈ (splitNames idx names).1 ↔
      n ∈ names ∧ ∃ e, dictGet idx n = some e ∧ e.isExternal = false := by
  induction names with
  | nil => simp [splitNames]
  | cons m ms ih =>
      cases hm : dictGet idx m with
      | none =>
          simp only [splitNames, hm]
          rw [ih]
          constructor
          · rintro ⟨hn, he⟩
            exact ⟨List.mem_cons_of_mem m hn, he⟩
          · rintro ⟨hn, e, he, hex⟩
            rcases List.mem_cons.mp hn with rfl | hn
            · rw [hm] at he
              cases he
            · exact ⟨hn, e, he, hex⟩
      | some ent =>
          cases hext : ent.isExternal with
          | true =>
              simp only [splitNames, hm, hext, if_true]
              rw [ih]
              constructor
              · rintro ⟨hn, he⟩
                exact ⟨List.mem_cons_of_mem m hn, he⟩
              · rintro ⟨hn, e, he, hex⟩
                rcases List.mem_cons.mp hn with rfl | hn
                · rw [hm] at he
                  cases he
                  rw [hext] at hex
                  cases hex
                · exact ⟨hn, e, he, hex⟩
          | false =>
              simp only [splitNames, hm, hext, Bool.false_eq_true, if_false,
                List.mem_cons]
              rw [ih]
              constructor
              · rintro (heq | ⟨hn, he⟩)
                · exact ⟨Or.inl heq, ent, by rw [heq]; exact hm, hext⟩
                · exact ⟨Or.inr hn, he⟩
              · rintro ⟨hn, e, he, hex⟩
                rcases hn with heq | hn
                · exact Or.inl heq
                · exact Or.inr ⟨hn, e, he, hex⟩

theorem mem_splitNames_external (idx : List (String × IndexEntry))
    (names : List String) (n : String) :
    n ∈ (splitNames idx names).2 ↔
      n ∈ names ∧ ∃ e, dictGet idx n = some e ∧ e.isExternal = true := by
  induction names with
  | nil => simp [splitNames]
  | cons m ms ih =>
      cases hm : dictGet idx m with
      | none =>
          simp only [splitNames, hm]
          rw [ih]
          constructor
          · rintro ⟨hn, he⟩
            exact ⟨List.mem_cons_of_mem m hn, he⟩
          · rintro ⟨hn, e, he, hex⟩
            rcases List.mem_cons.mp hn with rfl | hn
            · rw [hm] at he
              cases he
            · exact ⟨hn, e, he, hex⟩
      | some ent =>
          cases hext : ent.isExternal with
          | false =>
              simp only [splitNames, hm, hext, Bool.false_eq_true, if_false]
              rw [ih]
              constructor
              · rintro ⟨hn, he⟩
                exact ⟨List.mem_cons_of_mem m hn, he⟩
              · rintro ⟨hn, e, he, hex⟩
                rcases List.mem_cons.mp hn with rfl | hn
                · rw [hm] at he
                  cases he
                  rw [hext] at hex
                  cases hex
                · exact ⟨hn, e, he, hex⟩
          | true =>
              simp only [splitNames, hm, hext, if_true, List.mem_cons]
              rw [ih]
              constructor
              · rintro (heq | ⟨hn, he⟩)
                · exact ⟨Or.inl heq, ent, by rw [heq]; exact hm, hext⟩
                · exact ⟨Or.inr hn, he⟩
              · rintro ⟨hn, e, he, hex⟩
                rcases hn with heq | hn
                · exact Or.inl heq
                · exact Or.inr ⟨hn, e, he, hex⟩

/-- Membership in the resolved, sorted entry list. -/
theorem mem_entriesForNames (idx : List (String × IndexEntry))
    (ns : List String) (e : IndexEntry) :
    e ∈ entriesForNames idx ns ↔ ∃ n ∈ ns, dictGet idx n = some e := by
  unfold entriesForNames
  rw [(List.perm_insertionSort entryLE _).mem_iff, List.mem_filterMap]

/-- The value slice each entry should receive. -/
def sliceE (file : List Nat) (e : IndexEntry) : List Nat :=
  slice file e.data_offset e.data_length

theorem foldl_updRes_congr (v1 v2 : IndexEntry → List Nat)
    (es : List IndexEntry) (h : ∀ e ∈ es, v1 e = v2 e) :
    ∀ r0 : Results,
      es.foldl (fun res e => updRes res e.name (v1 e)) r0 =
      es.foldl (fun res e => updRes res e.name (v2 e)) r0 := by
  induction es with
  | nil => intro r0; rfl
  | cons e es ih =>
      intro r0
      simp only [List.foldl_cons]
      rw [h e (by simp), ih (fun x hx => h x (by simp [hx]))]

theorem foldl_updRes_char (v : IndexEntry → List Nat) (es : List IndexEntry)
    (hv : ∀ e1 ∈ es, ∀ e2 ∈ es, e1.name = e2.name → v e1 = v e2) :
    ∀ (r0 : Results) (n : String),
      (es.foldl (fun res e => updRes res e.name (v e)) r0) n =
        match es.find? (fun e => e.name == n) with
        | some e => some (v e)
        | none => r0 n := by
  induction es with
  | nil => intro r0 n; rfl
  | cons e es ih =>
      intro r0 n
      simp only [List.foldl_cons]
      rw [ih (fun x hx y hy => hv x (by simp [hx]) y (by simp [hy]))]
      by_cases hn : e.name = n
      · rw [List.find?_cons_of_pos _ (by simp [hn])]
        cases hfind : es.find? (fun x => x.name == n) with
        | some e2 =>
            have he2 := List.find?_some hfind
            have hmem := List.mem_of_find?_eq_some hfind
            simp only [beq_iff_eq] at he2
            exact congrArg some (hv e2 (by simp [hmem]) e (by simp) (by rw [he2, hn]))
        | none =>
            simp [updRes, hn]
      · rw [List.find?_cons_of_neg _ (by simp [hn])]
        cases hfind : es.find? (fun x => x.name == n) with
        | some e2 => rfl
        | none =>
            unfold updRes
            rw [if_neg (fun hh => hn hh.symm)]

/-- Within a sorted batch every entry's offset is at least the head's and
at most the last's. -/
theorem mem_offset_le_getLastD (l : List IndexEntry) :
    ∀ (f : IndexEntry), List.Pairwise entryLE (f :: l) →
      ∀ e ∈ f :: l, e.data_offset ≤ (l.getLastD f).data_offset := by
  induction l with
  | nil =>
      intro f _ e he
      simp only [List.mem_singleton] at he
      subst he
      simp [List.getLastD]
  | cons x xs ih =>
      intro f hp e he
      rw [List.getLastD_cons]
      rcases List.mem_cons.mp he with rfl | he2
      · have hfx : entryLE e x := (List.pairwise_cons.mp hp).1 x (by simp)
        have hx : x.data_offset ≤ (xs.getLastD x).data_offset :=
          ih x (List.pairwise_cons.mp hp).2 x (by simp)
        exact Nat.le_trans hfx hx
      · exact ih x (List.pairwise_cons.mp hp).2 e he2

theorem head_offset_le_mem (l : List IndexEntry) (f : IndexEntry)
    (hp : List.Pairwise entryLE (f :: l)) :
    ∀ e ∈ f :: l, f.data_offset ≤ e.data_offset := by
  intro e he
  rcases List.mem_cons.mp he with rfl | he2
  · exact Nat.le_refl _
  · exact (List.pairwise_cons.mp hp).1 e he2

theorem getLastD_mem (l : List IndexEntry) (f : IndexEntry) :
    l.getLastD f ∈ f :: l := by
  induction l generalizing f with
  | nil => simp [List.getLastD]
  | cons x xs ih =>
      rw [List.getLastD_cons]
      rcases List.mem_cons.mp (ih x) with h | h
      · rw [h]
        simp
      · exact List.mem_cons_of_mem f (List.mem_cons_of_mem x h)

/-- In a sorted batch whose data intervals are end-monotone, each entry's
per-batch slice equals its direct range read. -/
theorem batch_slice_correct (file : List Nat) (f : IndexEntry)
    (rest : List IndexEntry)
    (hsort : List.Pairwise entryLE (f :: rest))
    (hends : ∀ e ∈ f :: rest, e.dataEnd ≤ (rest.getLastD f).dataEnd) :
    ∀ e ∈ f :: rest,
      slice (slice file f.data_offset ((rest.getLastD f).dataEnd - f.data_offset))
        (e.data_offset - f.data_offset) e.data_length = sliceE file e := by
  intro e he
  exact slice_slice file f.data_offset ((rest.getLastD f).dataEnd)
    e.data_offset e.data_length (head_offset_le_mem rest f hsort e he) (hends e he)

theorem fetchStep_fst (file : List Nat) (acc : Results × List (Nat × Nat))
    (b : List IndexEntry)
    (hb : ∀ (f : IndexEntry) (rest : List IndexEntry), b = f :: rest →
      ∀ e ∈ b,
        slice (slice file f.data_offset
            ((rest.getLastD f).dataEnd - f.data_offset))
          (e.data_offset - f.data_offset) e.data_length = sliceE file e) :
    (fetchStep file acc b).1 =
      b.foldl (fun res e => updRes res e.name (sliceE file e)) acc.1 := by
  cases b with
  | nil => rfl
  | cons f rest =>
      show ((f :: rest).foldl
        (fun res e => updRes res e.name
          (slice (slice file f.data_offset ((rest.getLastD f).dataEnd - f.data_offset))
            (e.data_offset - f.data_offset) e.data_length))
        acc.1, _).1 = _
      exact foldl_updRes_congr _ _ (f :: rest) (hb f rest rfl) acc.1

theorem fetchBatches_fst (file : List Nat) (batches : List (List IndexEntry))
    (hb : ∀ b ∈ batches, ∀ (f : IndexEntry) (rest : List IndexEntry),
      b = f :: rest → ∀ e ∈ b,
        slice (slice file f.data_offset
            ((rest.getLastD f).dataEnd - f.data_offset))
          (e.data_offset - f.data_offset) e.data_length = sliceE file e) :
    ∀ acc : Results × List (Nat × Nat),
      (batches.foldl (fetchStep file) acc).1 =
        batches.flatten.foldl
          (fun res e => updRes res e.name (sliceE file e)) acc.1 := by
  induction batches with
  | nil => intro acc; rfl
  | cons b bs ih =>
      intro acc
      rw [List.foldl_cons, List.flatten_cons, List.foldl_append,
        ih (fun x hx => hb x (by simp [hx])) (fetchStep file acc b),
        fetchStep_fst file acc b (fun f rest hfr e hee =>
          hb b (by simp) f rest hfr e hee)]

theorem extFold_char (ext : List (String × List Nat)) (ns : List String) :
    ∀ (base : Results) (n : String),
      (ns.foldl (fun res m => match dictGet ext m with
        | some b => updRes res m b
        | none => res) base) n =
      if n ∈ ns ∧ (dictGet ext n).isSome then dictGet ext n else base n := by
  induction ns with
  | nil =>
      intro base n
      simp
  | cons m ms ih =>
      intro base n
      simp only [List.foldl_cons]
      cases hm : dictGet ext m with
      | none =>
          rw [ih]
          by_cases hmem : n ∈ ms ∧ (dictGet ext n).isSome
          · rw [if_pos hmem, if_pos ⟨List.mem_cons_of_mem m hmem.1, hmem.2⟩]
          · rw [if_neg hmem, if_neg ?_]
            rintro ⟨hmm, hs⟩
            rcases List.mem_cons.mp hmm with rfl | hmm2
            · rw [hm] at hs
              cases hs
            · exact hmem ⟨hmm2, hs⟩
      | some b =>
          rw [ih]
          by_cases hmem : n ∈ ms ∧ (dictGet ext n).isSome
          · rw [if_pos hmem, if_pos ⟨List.mem_cons_of_mem m hmem.1, hmem.2⟩]
          · rw [if_neg hmem]
            by_cases hnm : n = m
            · subst hnm
              rw [if_pos ⟨List.mem_cons_self n ms, by rw [hm]; rfl⟩, hm]
              show (if n = n then some b else base n) = some b
              rw [if_pos rfl]
            · rw [if_neg ?_]
              · show (if n = m then some b else base n) = base n
                rw [if_neg hnm]
              · rintro ⟨hmm, hs⟩
                rcases List.mem_cons.mp hmm with rfl | hmm2
                · exact hnm rfl
                · exact hmem ⟨hmm2, hs⟩

set_option maxHeartbeats 1000000 in
/-- C4 (amended): on a loaded index whose lookups are name-coherent and
whose internal data intervals are end-monotone in their offsets (true of
every writer-produced container, where intervals are disjoint — the
counterexample shows the claim fails for a handcrafted container with
overlapping intervals), get_files_batch returns pointwise exactly
get_file's result for every requested name, with missing names and
missing external side-objects skipped rather than raised. -/
theorem c4_batch_equivalence (r : Reader) (idx : List (String × IndexEntry))
    (names : List String) (g : Nat)
    (hidx : loadIndex r = .ok idx)
    (hname : ∀ (k : String) (e : IndexEntry), dictGet idx k = some e → e.name = k)
    (hmono : ∀ (k1 k2 : String) (e1 e2 : IndexEntry),
      dictGet idx k1 = some e1 → dictGet idx k2 = some e2 →
      e1.isExternal = false → e2.isExternal = false →
      e1.data_offset ≤ e2.data_offset → e1.dataEnd ≤ e2.dataEnd) :
    get_files_batch r names g = .ok (get_files_batch_idx r idx names g) ∧
    ∀ n, (get_files_batch_idx r idx names g).1 n =
      if n ∈ names then (get_file r n).toOption else none := by
  constructor
  · unfold get_files_batch
    rw [hidx]
  intro n
  have hget : get_file r n = get_file_idx r idx n := by
    unfold get_file
    rw [hidx]
  rw [hget]
  have hentry_props : ∀ e ∈ entriesForNames idx (splitNames idx names).1,
      dictGet idx e.name = some e ∧ e.isExternal = false := by
    intro e he
    obtain ⟨n2, hn2, hlk⟩ := (mem_entriesForNames idx _ e).mp he
    obtain ⟨-, e2, hlk2, hx2⟩ := (mem_splitNames_internal idx names n2).mp hn2
    have hnm := hname n2 e hlk
    rw [hnm]
    refine ⟨hlk, ?_⟩
    rw [hlk] at hlk2
    cases hlk2
    exact hx2
  have hsorted : List.Pairwise entryLE (entriesForNames idx (splitNames idx names).1) :=
    List.sorted_insertionSort entryLE _
  have hflat : (groupEntries (entriesForNames idx (splitNames idx names).1) g).flatten =
      entriesForNames idx (splitNames idx names).1 :=
    groupEntries_flatten _ g
  have hbatchPair : ∀ b ∈ groupEntries (entriesForNames idx (splitNames idx names).1) g,
      List.Pairwise entryLE b :=
    (List.pairwise_flatten.mp (by rw [hflat]; exact hsorted)).1
  have hbmem : ∀ b ∈ groupEntries (entriesForNames idx (splitNames idx names).1) g,
      ∀ e ∈ b, e ∈ entriesForNames idx (splitNames idx names).1 := by
    intro b hb e he
    rw [← hflat]
    exact List.mem_flatten.mpr ⟨b, hb, he⟩
  have hslice : ∀ b ∈ groupEntries (entriesForNames idx (splitNames idx names).1) g,
      ∀ (f : IndexEntry) (rest : List IndexEntry), b = f :: rest →
      ∀ e ∈ b,
        slice (slice r.file f.data_offset ((rest.getLastD f).dataEnd - f.data_offset))
          (e.data_offset - f.data_offset) e.data_length = sliceE r.file e := by
    intro b hb f rest hfr
    subst hfr
    refine batch_slice_correct r.file f rest (hbatchPair _ hb) ?_
    intro e he
    have hlastmem : rest.getLastD f ∈ f :: rest := getLastD_mem rest f
    obtain ⟨hl1, hx1⟩ := hentry_props e (hbmem _ hb e he)
    obtain ⟨hl2, hx2⟩ := hentry_props _ (hbmem _ hb _ hlastmem)
    exact hmono e.name (rest.getLastD f).name e (rest.getLastD f) hl1 hl2 hx1 hx2
      (mem_offset_le_getLastD rest f (hbatchPair _ hb) e he)
  have hdet : ∀ e1 ∈ entriesForNames idx (splitNames idx names).1,
      ∀ e2 ∈ entriesForNames idx (splitNames idx names).1,
      e1.name = e2.name → e1 = e2 := by
    intro e1 h1 e2 h2 hn12
    obtain ⟨hl1, -⟩ := hentry_props e1 h1
    obtain ⟨hl2, -⟩ := hentry_props e2 h2
    rw [hn12, hl2] at hl1
    cases hl1
    rfl
  have hfetch : ∀ m, (fetchBatches r.file
      (groupEntries (entriesForNames idx (splitNames idx names).1) g)).1 m =
      match (entriesForNames idx (splitNames idx names).1).find?
          (fun e => e.name == m) with
      | some e => some (sliceE r.file e)
      | none => none := by
    intro m
    unfold fetchBatches
    rw [fetchBatches_fst r.file _ hslice (emptyResults, []), hflat,
      foldl_updRes_char (sliceE r.file) _
        (fun e1 h1 e2 h2 hn12 => by rw [hdet e1 h1 e2 h2 hn12])]
    cases (entriesForNames idx (splitNames idx names).1).find? (fun e => e.name == m) with
    | some e => rfl
    | none => rfl
  have hres : (get_files_batch_idx r idx names g).1 =
      (splitNames idx names).2.foldl (fun res m => match dictGet r.ext m with
        | some b => updRes res m b
        | none => res)
        (fetchBatches r.file
          (groupEntries (entriesForNames idx (splitNames idx names).1) g)).1 := rfl
  rw [hres, extFold_char]
  by_cases hint : n ∈ (splitNames idx names).1
  · obtain ⟨hn_names, ent, hlk, hx⟩ := (mem_splitNames_internal idx names n).mp hint
    have hnotext : ¬ (n ∈ (splitNames idx names).2 ∧ (dictGet r.ext n).isSome) := by
      rintro ⟨hmem2, -⟩
      obtain ⟨-, ent2, hlk2, hx2⟩ := (mem_splitNames_external idx names n).mp hmem2
      rw [hlk] at hlk2
      cases hlk2
      rw [hx] at hx2
      cases hx2
    rw [if_neg hnotext, hfetch n]
    have hmement : ent ∈ entriesForNames idx (splitNames idx names).1 :=
      (mem_entriesForNames idx _ ent).mpr ⟨n, hint, hlk⟩
    have hentname : ent.name = n := hname n ent hlk
    have hfsome : ((entriesForNames idx (splitNames idx names).1).find?
        (fun e => e.name == n)).isSome := by
      rw [List.find?_isSome]
      exact ⟨ent, hmement, by simp [hentname]⟩
    obtain ⟨e2, hfind⟩ := Option.isSome_iff_exists.mp hfsome
    have he2mem := List.mem_of_find?_eq_some hfind
    have he2name : e2.name = n := by simpa using List.find?_some hfind
    have he2ent : e2 = ent := hdet e2 he2mem ent hmement (by rw [he2name, hentname])
    rw [hfind, he2ent, if_pos hn_names]
    unfold get_file_idx
    rw [hlk]
    simp [hx, sliceE, Except.toOption]
  · by_cases hextm : n ∈ (splitNames idx names).2 ∧ (dictGet r.ext n).isSome
    · rw [if_pos hextm]
      obtain ⟨hn_names, ent, hlk, hx⟩ := (mem_splitNames_external idx names n).mp hextm.1
      rw [if_pos hn_names]
      unfold get_file_idx
      rw [hlk]
      have hentname : ent.name = n := hname n ent hlk
      obtain ⟨b, hb⟩ := Option.isSome_iff_exists.mp hextm.2
      simp [hx, read_external, hentname, hb, Except.toOption]
    · rw [if_neg hextm, hfetch n]
      have hfnone : (entriesForNames idx (splitNames idx names).1).find?
          (fun e => e.name == n) = none := by
        rw [List.find?_eq_none]
        intro e he hpe
        have hen : e.name = n := by simpa using hpe
        obtain ⟨n2, hn2, hlk2⟩ := (mem_entriesForNames idx _ e).mp he
        have hnm2 : e.name = n2 := hname n2 e hlk2
        rw [hen] at hnm2
        exact hint (hnm2 ▸ hn2)
      rw [hfnone]
      by_cases hn_names : n ∈ names
      · rw [if_pos hn_names]
        unfold get_file_idx
        cases hlk : dictGet idx n with
        | none => rfl
        | some ent =>
            cases hx : ent.isExternal with
            | false =>
                exact absurd ((mem_splitNames_internal idx names n).mpr
                  ⟨hn_names, ent, hlk, hx⟩) hint
            | true =>
                have hmem2 : n ∈ (splitNames idx names).2 :=
                  (mem_splitNames_external idx names n).mpr ⟨hn_names, ent, hlk, hx⟩
                have hnone2 : dictGet r.ext n = none := by
                  cases hre : dictGet r.ext n with
                  | none => rfl
                  | some b => exact absurd ⟨hmem2, by rw [hre]; rfl⟩ hextm
                have hentname : ent.name = n := hname n ent hlk
                simp [hx, read_external, hentname, hnone2, Except.toOption]
      · rw [if_neg hn_names]

/-- C4 counterexample data: a container whose index entries have
overlapping data intervals.  It satisfies every §3.1 region invariant
(overlap is not excluded there), yet batch reading truncates "A". -/
def c4EntryA : IndexEntry :=
  { name := "A", data_offset := 16, data_length := 100, meta_offset := 116
    meta_length := 0, flags := 0 }

def c4EntryB : IndexEntry :=
  { name := "B", data_offset := 20, data_length := 4, meta_offset := 116
    meta_length := 0, flags := 0 }

def c4IndexBytes : List Nat :=
  ([c4EntryA, c4EntryB].map encodeEntry).flatten

def c4Container : List Nat :=
  headerBytes ++ (List.range 100).map (fun i => (i + 1) % 256) ++ c4IndexBytes ++
    packFooter 16 100 116 0 116 c4IndexBytes.length 2

def c4Reader : Reader :=
  match mkReader c4Container [] with
  | .ok r => r
  | .error _ => { file := [], footer := unpackFooter [], ext := [] }

def c4BatchRes : Results :=
  match get_files_batch c4Reader ["A", "B"] 1024 with
  | .ok p => p.1
  | .error _ => emptyResults

set_option maxRecDepth 100000 in
/-- C4 counterexample: on a container that satisfies all §3.1 invariants
but whose entries "A" = [16,116) and "B" = [20,24) overlap, the batch
groups them into one run covering only [16,24), so the batch result for
"A" is an 8-byte truncation while get_file("A") returns 100 bytes — the
claimed equality fails. -/
theorem c4_counterexample :
    specFooterInvariants c4Reader.footer c4Container.length ∧
    c4Reader.footer.data_start ≤ c4EntryA.data_offset ∧
    c4EntryA.dataEnd ≤ c4Reader.footer.data_start + c4Reader.footer.data_length ∧
    c4Reader.footer.data_start ≤ c4EntryB.data_offset ∧
    c4EntryB.dataEnd ≤ c4Reader.footer.data_start + c4Reader.footer.data_length ∧
    (mkReader c4Container []).isOk = true ∧
    (get_files_batch c4Reader ["A", "B"] 1024).isOk = true ∧
    c4BatchRes "A" = some (slice c4Container 16 8) ∧
    get_file c4Reader "A" = .ok (slice c4Container 16 100) ∧
    c4BatchRes "A" ≠ (get_file c4Reader "A").toOption := by
  refine ⟨by decide, by decide, by decide, by decide, by decide, by decide,
    by decide, by decide, by decide, by decide⟩

/-- C4 witness data: a writer-produced two-file container and its loaded
index. -/
def c4wContainer : List Nat :=
  match addAll (newWriter 100 none) [("a", [1, 2, 3, 4], []), ("b", [5, 6], [])] with
  | .ok w => closeBytes w
  | .error _ => []

def c4wReader : Reader :=
  match mkReader c4wContainer [] with
  | .ok r => r
  | .error _ => { file := [], footer := unpackFooter [], ext := [] }

def c4wEA : IndexEntry :=
  { name := "a", data_offset := 16, data_length := 4, meta_offset := 22
    meta_length := 10, flags := 0 }

def c4wEB : IndexEntry :=
  { name := "b", data_offset := 20, data_length := 2, meta_offset := 32
    meta_length := 10, flags := 0 }

def c4wIdx : List (String × IndexEntry) :=
  [("a", c4wEA), ("b", c4wEB)]

theorem c4wIdx_cases (k : String) (e : IndexEntry)
    (h : dictGet c4wIdx k = some e) :
    (e = c4wEA ∧ k = "a") ∨ (e = c4wEB ∧ k = "b") := by
  unfold c4wIdx dictGet at h
  by_cases h1 : "a" = k
  · rw [if_pos h1] at h
    cases h
    exact Or.inl ⟨rfl, h1.symm⟩
  · rw [if_neg h1] at h
    unfold dictGet at h
    by_cases h2 : "b" = k
    · rw [if_pos h2] at h
      cases h
      exact Or.inr ⟨rfl, h2.symm⟩
    · rw [if_neg h2] at h
      exact absurd h (by simp [dictGet])

set_option maxRecDepth 100000 in
/-- C4 witness: the amended equivalence applied to a concrete
writer-produced container, evaluated at both a present and an absent
name. -/
theorem c4_batch_equivalence_witness :
    get_files_batch c4wReader ["a", "zzz"] 1024 =
      .ok (get_files_batch_idx c4wReader c4wIdx ["a", "zzz"] 1024) ∧
    (get_files_batch_idx c4wReader c4wIdx ["a", "zzz"] 1024).1 "a" =
      (if "a" ∈ ["a", "zzz"] then (get_file c4wReader "a").toOption else none) ∧
    (get_files_batch_idx c4wReader c4wIdx ["a", "zzz"] 1024).1 "zzz" =
      (if "zzz" ∈ ["a", "zzz"] then (get_file c4wReader "zzz").toOption else none) := by
  have hname : ∀ (k : String) (e : IndexEntry), dictGet c4wIdx k = some e →
      e.name = k := by
    intro k e h
    rcases c4wIdx_cases k e h with ⟨rfl, rfl⟩ | ⟨rfl, rfl⟩ <;> rfl
  have hmono : ∀ (k1 k2 : String) (e1 e2 : IndexEntry),
      dictGet c4wIdx k1 = some e1 → dictGet c4wIdx k2 = some e2 →
      e1.isExternal = false → e2.isExternal = false →
      e1.data_offset ≤ e2.data_offset → e1.dataEnd ≤ e2.dataEnd := by
    intro k1 k2 e1 e2 h1 h2 _ _ hoff
    rcases c4wIdx_cases k1 e1 h1 with ⟨rfl, -⟩ | ⟨rfl, -⟩ <;>
      rcases c4wIdx_cases k2 e2 h2 with ⟨rfl, -⟩ | ⟨rfl, -⟩ <;>
      revert hoff <;> decide
  have h := c4_batch_equivalence c4wReader c4wIdx ["a", "zzz"] 1024
    (by decide) hname hmono
  exact ⟨h.1, h.2 "a", h.2 "zzz"⟩

/-! ### Writer characterisation lemmas (shared by C1, C5, C10) -/

/-- The external-object key add_file uploads to:
f"{s3_prefix}/{EXTERNAL_FILES_FOLDER}/{name}". -/
def extKey (w : Writer) (name : String) : String :=
  w.s3Pre ++ "/" ++ EXTERNAL_FILES_FOLDER ++ "/" ++ name

/-- The metadata dict stored for an externalised entry: caller's meta with
"size", "is_external" and (when s3_prefix is truthy) "external_key". -/
def extMeta (w : Writer) (name : String) (meta : MetaDict) (len : Nat) : MetaDict :=
  let md1 := dictSet (dictSet meta "size" (.n len)) "is_external" (.b true)
  if w.s3Pre ≠ "" then dictSet md1 "external_key" (.s (extKey w name)) else md1

/-- The metadata dict stored for an internal entry. -/
def intMeta (meta : MetaDict) (len : Nat) : MetaDict :=
  dictSet meta "size" (.n len)

theorem add_file_external_eq (w : Writer) (name : String) (data : List Nat)
    (meta : MetaDict) (force : Bool)
    (hclosed : w.closed = false)
    (hval : validate_filename name = .ok ())
    (hext : w.extEnabled = true)
    (hbig : force = true ∨ w.big_file_threshold ≤ data.length)
    (hmb : (metaBytes (extMeta w name meta data.length)).length ≤ MAX_META_SIZE) :
    add_file w name data meta force = .ok { w with
      extObjs := w.extObjs ++ [(extKey w name, data)]
      metaBuf := w.metaBuf ++ metaBytes (extMeta w name meta data.length)
      entries := w.entries ++
        [{ name := name, data_offset := 0, data_length := data.length
           meta_offset := w.metaBuf.length
           meta_length := (metaBytes (extMeta w name meta data.length)).length
           flags := FLAG_IS_EXTERNAL }] } := by
  have hshould : ((force || decide (w.big_file_threshold ≤ data.length)) &&
      w.extEnabled) = true := by
    rcases hbig with hb | hb <;> simp [hb, hext]
  simp only [add_file, hclosed, Bool.false_eq_true, if_false, hval, hshould,
    if_true, Bool.true_eq_false]
  rw [if_neg (by
    simp only [extMeta, extKey, intMeta] at hmb ⊢
    omega)]
  simp only [extMeta, extKey, intMeta]

theorem add_file_internal_eq (w : Writer) (name : String) (data : List Nat)
    (meta : MetaDict) (force : Bool)
    (hclosed : w.closed = false)
    (hval : validate_filename name = .ok ())
    (hint : ((force || decide (w.big_file_threshold ≤ data.length)) &&
      w.extEnabled) = false)
    (hmb : (metaBytes (intMeta meta data.length)).length ≤ MAX_META_SIZE) :
    add_file w name data meta force = .ok { w with
      file := w.file ++ data
      metaBuf := w.metaBuf ++ metaBytes (intMeta meta data.length)
      entries := w.entries ++
        [{ name := name, data_offset := w.file.length, data_length := data.length
           meta_offset := w.metaBuf.length
           meta_length := (metaBytes (intMeta meta data.length)).length
           flags := 0 }] } := by
  simp only [add_file, hclosed, Bool.false_eq_true, if_false, hval, hint,
    Bool.true_eq_false]
  rw [if_neg (by
    simp only [intMeta] at hmb ⊢
    omega)]
  simp only [intMeta]

/-- The serialized form of key `k` inside a JSON object blob. -/
def keyBytes (k : String) : List Nat :=
  strBytes ("\"" ++ k ++ "\":")

theorem key_infix_jsonBody (d : MetaDict) (k : String) (v : MVal)
    (h : dictGet d k = some v) :
    List.IsInfix (keyBytes k) (strBytes (jsonBody d)) := by
  induction d with
  | nil => simp [dictGet] at h
  | cons p rest ih =>
      obtain ⟨k0, v0⟩ := p
      by_cases hk : k0 = k
      · subst hk
        cases rest with
        | nil =>
            refine ⟨[], strBytes (jsonOfMVal v0), ?_⟩
            simp [jsonBody, keyBytes, strBytes_append]
        | cons q qrest =>
            refine ⟨[], strBytes (jsonOfMVal v0) ++ strBytes "," ++
              strBytes (jsonBody (q :: qrest)), ?_⟩
            simp [jsonBody, keyBytes, strBytes_append]
      · simp only [dictGet, hk, if_false] at h
        cases rest with
        | nil => simp [dictGet] at h
        | cons q qrest =>
            obtain ⟨s, t, hst⟩ := ih h
            refine ⟨strBytes ("\"" ++ k0 ++ "\":" ++ jsonOfMVal v0 ++ ",") ++ s, t, ?_⟩
            simp only [jsonBody, strBytes_append, List.append_assoc] at hst ⊢
            rw [hst]

theorem key_infix_metaBytes (d : MetaDict) (k : String) (v : MVal)
    (h : dictGet d k = some v) :
    List.IsInfix (keyBytes k) (metaBytes d) := by
  obtain ⟨s, t, hst⟩ := key_infix_jsonBody d k v h
  refine ⟨strBytes "\x7b" ++ s, t ++ strBytes "\x7d", ?_⟩
  simp only [metaBytes, metaJson, strBytes_append, List.append_assoc] at hst ⊢
  rw [← hst]
  simp [List.append_assoc]

/-! ### C5: externalisation of big files -/

/-- The writer state after the C5 counterexample add (external storage
configured with an empty prefix). -/
def c5Writer : Writer :=
  match add_file (newWriter 1 (some "")) "a" [0] [] false with
  | .ok w => w
  | .error _ => newWriter 1 (some "")

/-- C5 counterexample: with external storage configured as
(client, bucket, s3_prefix="") and big_file_threshold=1, adding "a" with
one byte externalises it, but because `if self.s3_prefix:` is false for
the empty string, the stored metadata is exactly
{"size":1,"is_external":true} and contains no "external_key" entry,
contradicting the claim that the stored metadata always carries the
external_key. -/
theorem c5_counterexample :
    (add_file (newWriter 1 (some "")) "a" [0] [] false).isOk = true ∧
    c5Writer.metaBuf = strBytes "\x7b\"size\":1,\"is_external\":true\x7d" ∧
    (∀ d : MetaDict, (∃ v, dictGet d "external_key" = some v) →
      c5Writer.metaBuf ≠ metaBytes d) ∧
    c5Writer.entries.map IndexEntry.flags = [FLAG_IS_EXTERNAL] ∧
    c5Writer.extObjs.map (·.1) = ["/_bigFiles/a"] := by
  refine ⟨by decide, by decide, ?_, by decide, by decide⟩
  intro d ⟨v, hv⟩ heq
  have hinf := key_infix_metaBytes d "external_key" v hv
  rw [← heq] at hinf
  revert hinf
  decide

/-- C5 (amended): for every add_file on a non-closed writer with external
storage configured and data length at or above the threshold (with a
valid name and metadata within bounds): the payload is uploaded at
`<prefix>/_bigFiles/<name>`, no payload byte is appended to the
container, the recorded entry has data_offset 0, data_length = |data| and
the EXTERNAL flag, the stored metadata carries "is_external" = true, and
it carries "external_key" = `<prefix>/_bigFiles/<name>` provided the
configured prefix is non-empty (with an empty prefix the key is omitted,
which the counterexample shows). -/
theorem c5_externalisation (w : Writer) (name : String) (data : List Nat)
    (meta : MetaDict)
    (hclosed : w.closed = false)
    (hval : validate_filename name = .ok ())
    (hext : w.extEnabled = true)
    (hbig : w.big_file_threshold ≤ data.length)
    (hmb : (metaBytes (extMeta w name meta data.length)).length ≤ MAX_META_SIZE) :
    ∃ w2, add_file w name data meta false = .ok w2 ∧
      w2.file = w.file ∧
      w2.extObjs = w.extObjs ++ [(extKey w name, data)] ∧
      w2.entries = w.entries ++
        [{ name := name, data_offset := 0, data_length := data.length
           meta_offset := w.metaBuf.length
           meta_length := (metaBytes (extMeta w name meta data.length)).length
           flags := FLAG_IS_EXTERNAL }] ∧
      w2.metaBuf = w.metaBuf ++ metaBytes (extMeta w name meta data.length) ∧
      dictGet (extMeta w name meta data.length) "is_external" = some (.b true) ∧
      (w.s3Pre ≠ "" →
        dictGet (extMeta w name meta data.length) "external_key" =
          some (.s (extKey w name))) := by
  have heq := add_file_external_eq w name data meta false hclosed hval hext
    (Or.inr hbig) hmb
  refine ⟨_, heq, rfl, rfl, rfl, rfl, ?_, ?_⟩
  · unfold extMeta
    by_cases hp : w.s3Pre ≠ ""
    · rw [if_pos hp]
      rw [dictGet_dictSet_other _ _ _ _ (by decide)]
      exact dictGet_dictSet_self _ _ _
    · rw [if_neg hp]
      exact dictGet_dictSet_self _ _ _
  · intro hp
    unfold extMeta
    rw [if_pos hp, dictGet_dictSet_self]

/-- C5 witness: scenario S2 — threshold 16, prefix "2025-01-15/shard_00",
a 20-byte file "big" is externalised. -/
theorem c5_externalisation_witness :
    (newWriter 16 (some "2025-01-15/shard_00")).closed = false ∧
    validate_filename "big" = .ok () ∧
    (newWriter 16 (some "2025-01-15/shard_00")).extEnabled = true ∧
    (newWriter 16 (some "2025-01-15/shard_00")).big_file_threshold ≤
      (List.replicate 20 0).length ∧
    ∃ w2, add_file (newWriter 16 (some "2025-01-15/shard_00")) "big"
        (List.replicate 20 0) [] false = .ok w2 ∧
      w2.file = (newWriter 16 (some "2025-01-15/shard_00")).file ∧
      w2.extObjs = (newWriter 16 (some "2025-01-15/shard_00")).extObjs ++
        [(extKey (newWriter 16 (some "2025-01-15/shard_00")) "big",
          List.replicate 20 0)] ∧
      w2.entries = (newWriter 16 (some "2025-01-15/shard_00")).entries ++
        [{ name := "big", data_offset := 0, data_length := (List.replicate 20 0).length
           meta_offset := (newWriter 16 (some "2025-01-15/shard_00")).metaBuf.length
           meta_length := (metaBytes (extMeta (newWriter 16 (some "2025-01-15/shard_00"))
             "big" [] (List.replicate 20 0).length)).length
           flags := FLAG_IS_EXTERNAL }] ∧
      w2.metaBuf = (newWriter 16 (some "2025-01-15/shard_00")).metaBuf ++
        metaBytes (extMeta (newWriter 16 (some "2025-01-15/shard_00")) "big" []
          (List.replicate 20 0).length) ∧
      dictGet (extMeta (newWriter 16 (some "2025-01-15/shard_00")) "big" []
        (List.replicate 20 0).length) "is_external" = some (.b true) ∧
      ((newWriter 16 (some "2025-01-15/shard_00")).s3Pre ≠ "" →
        dictGet (extMeta (newWriter 16 (some "2025-01-15/shard_00")) "big" []
          (List.replicate 20 0).length) "external_key" =
          some (.s (extKey (newWriter 16 (some "2025-01-15/shard_00")) "big"))) :=
  ⟨rfl, by decide, rfl, by decide,
    c5_externalisation (newWriter 16 (some "2025-01-15/shard_00")) "big"
      (List.replicate 20 0) [] rfl (by decide) rfl (by decide) (by decide)⟩

/-! ### C10: metadata augmentation by add_file -/

/-- The writer state after the C10 counterexample add. -/
def c10Writer : Writer :=
  match add_file (newWriter 2 (some "")) "b" [0, 0] [] false with
  | .ok w => w
  | .error _ => newWriter 2 (some "")

/-- C10 counterexample: with external storage configured under the empty
prefix, the externalised entry's stored blob is
{"size":2,"is_external":true} and contains no "external_key", so the
parenthetical of the claim (externalised entries also get "external_key")
fails as stated. -/
theorem c10_counterexample :
    (add_file (newWriter 2 (some "")) "b" [0, 0] [] false).isOk = true ∧
    c10Writer.metaBuf = strBytes "\x7b\"size\":2,\"is_external\":true\x7d" ∧
    (∀ d : MetaDict, (∃ v, dictGet d "external_key" = some v) →
      c10Writer.metaBuf ≠ metaBytes d) := by
  refine ⟨by decide, by decide, ?_⟩
  intro d ⟨v, hv⟩ heq
  have hinf := key_infix_metaBytes d "external_key" v hv
  rw [← heq] at hinf
  revert hinf
  decide

/-- C10 (amended): every successful add_file appends to the meta buffer
exactly the JSON encoding of the caller's dict augmented with "size" =
len(data) (for internal entries), respectively further augmented with
"is_external" = true and — when the configured prefix is non-empty —
"external_key" (for externalised entries); the augmented dict maps "size"
to len(data), and when the caller supplied no "size" it is the caller's
dict with the single extra trailing "size" key. -/
theorem c10_meta_augmentation (w : Writer) (name : String) (data : List Nat)
    (meta : MetaDict) (force : Bool) (w2 : Writer)
    (hok : add_file w name data meta force = .ok w2) :
    w2.metaBuf = w.metaBuf ++ metaBytes
      (if (force || decide (w.big_file_threshold ≤ data.length)) && w.extEnabled
        then extMeta w name meta data.length else intMeta meta data.length) ∧
    dictGet (intMeta meta data.length) "size" = some (.n data.length) ∧
    dictGet (extMeta w name meta data.length) "size" = some (.n data.length) ∧
    (dictGet meta "size" = none →
      intMeta meta data.length = meta ++ [("size", MVal.n data.length)]) := by
  refine ⟨?_, dictGet_dictSet_self _ _ _, ?_, fun hnone => dictSet_of_not_mem _ _ _ hnone⟩
  · cases hcl : w.closed with
    | true => simp [add_file, hcl] at hok
    | false =>
        cases hv : validate_filename name with
        | error e => simp [add_file, hcl, hv] at hok
        | ok u =>
            simp only [add_file, hcl, Bool.false_eq_true, if_false, hv] at hok
            cases hs : (force || decide (w.big_file_threshold ≤ data.length)) &&
                w.extEnabled with
            | true =>
                simp only [hs, if_true, Bool.true_eq_false] at hok
                by_cases hp : w.s3Pre ≠ ""
                · rw [if_pos hp] at hok
                  split at hok
                  · cases hok
                  · cases hok
                    simp [hs, extMeta, intMeta, extKey, hp]
                · rw [if_neg hp] at hok
                  split at hok
                  · cases hok
                  · cases hok
                    simp [hs, extMeta, intMeta, extKey, hp]
            | false =>
                simp only [hs, if_false, Bool.false_eq_true] at hok
                split at hok
                · cases hok
                · cases hok
                  simp [hs, extMeta, intMeta]
  · unfold extMeta
    by_cases hp : w.s3Pre ≠ ""
    · rw [if_pos hp, dictGet_dictSet_other _ _ _ _ (by decide),
        dictGet_dictSet_other _ _ _ _ (by decide)]
      exact dictGet_dictSet_self _ _ _
    · rw [if_neg hp, dictGet_dictSet_other _ _ _ _ (by decide)]
      exact dictGet_dictSet_self _ _ _

/-- The writer state after the C10 witness add (plain internal file). -/
def c10WitnessWriter : Writer :=
  match add_file (newWriter 100 none) "a.txt" [1, 2, 3] [] false with
  | .ok w => w
  | .error _ => newWriter 100 none

/-- C10 witness at a concrete internal add. -/
theorem c10_meta_augmentation_witness :
    c10WitnessWriter.metaBuf = (newWriter 100 none).metaBuf ++ metaBytes
      (if (false || decide ((newWriter 100 none).big_file_threshold ≤
          ([1, 2, 3] : List Nat).length)) && (newWriter 100 none).extEnabled
        then extMeta (newWriter 100 none) "a.txt" [] ([1, 2, 3] : List Nat).length
        else intMeta [] ([1, 2, 3] : List Nat).length) ∧
    dictGet (intMeta [] ([1, 2, 3] : List Nat).length) "size" = some (.n 3) ∧
    dictGet (extMeta (newWriter 100 none) "a.txt" [] ([1, 2, 3] : List Nat).length)
      "size" = some (.n 3) ∧
    (dictGet ([] : MetaDict) "size" = none →
      intMeta [] ([1, 2, 3] : List Nat).length = [] ++ [("size", MVal.n 3)]) :=
  c10_meta_augmentation (newWriter 100 none) "a.txt" [1, 2, 3] [] false
    c10WitnessWriter (by decide)

set_option maxRecDepth 40000 in
/-- C2: the claim matches the repository's own tests (which demand a
Format error here) but the code accepts the corrupted object: reader
construction succeeds on a footer whose region invariants are broken
(data_start + data_length = 1000000015 while meta_start = 21), because
_parse_footer validates only magic and version. -/
theorem c2_reader_accepts_broken_invariants :
    (mkReader c2Corrupted []).isOk = true ∧
    c2AcceptedFooter.data_length = 999999999 ∧
    ¬ specFooterInvariants c2AcceptedFooter c2Corrupted.length := by
  refine ⟨by decide, by decide, by decide⟩

/-! ### C1: writer-to-reader round trip

Helper slice lemmas, the footer pack/unpack round trip, the index
encode/parse round trip, and a characterization of the writer state after
a sequence of internal `add_file` calls. -/

/-- Extract a middle segment of a concatenation by offset and length. -/
theorem slice_concat_eq (l pre mid post : List Nat) (k n : Nat)
    (hl : l = pre ++ (mid ++ post)) (hk : pre.length = k) (hn : mid.length = n) :
    slice l k n = mid := by
  subst hl hk hn
  simp only [slice]
  rw [List.drop_left, List.take_left]

/-- A slice known to be a concatenation splits into two adjacent slices. -/
theorem slice_split (C X Y : List Nat) (a : Nat)
    (h : slice C a (X.length + Y.length) = X ++ Y) :
    slice C a X.length = X ∧ slice C (a + X.length) Y.length = Y := by
  constructor
  · have h1 := congrArg (List.take X.length) h
    rw [List.take_left] at h1
    have h3 : slice C a X.length =
        List.take X.length (slice C a (X.length + Y.length)) := by
      simp only [slice, List.take_take]
      rw [Nat.min_eq_left (Nat.le_add_right _ _)]
    rw [h3]
    exact h1
  · have h2 := congrArg (List.drop X.length) h
    rw [List.drop_left] at h2
    have h3 : slice C (a + X.length) Y.length =
        List.drop X.length (slice C a (X.length + Y.length)) := by
      simp only [slice, List.drop_take, List.drop_drop]
      have e1 : X.length + Y.length - X.length = Y.length := by omega
      rw [e1]
    rw [h3]
    exact h2

set_option maxHeartbeats 1000000 in
theorem unpackFooter_packFooter (a b c d e f g : Nat)
    (ha : a < 2 ^ 64) (hb : b < 2 ^ 64) (hc : c < 2 ^ 64) (hd : d < 2 ^ 64)
    (he : e < 2 ^ 64) (hf : f < 2 ^ 64) (hg : g < 2 ^ 64) :
    unpackFooter (packFooter a b c d e f g) =
      { magic := FOOTER_MAGIC, version := VERSION, data_start := a
        data_length := b, meta_start := c, meta_length := d
        index_start := e, index_length := f, file_count := g } := by
  have h256 : (256 : Nat) ^ 8 = 2 ^ 64 := by norm_num
  have hFM : FOOTER_MAGIC.length = 8 := by decide
  unfold unpackFooter
  rw [Footer.mk.injEq]
  refine ⟨?_, ?_, ?_, ?_, ?_, ?_, ?_, ?_, ?_⟩
  · exact slice_concat_eq _ [] FOOTER_MAGIC
      ([VERSION] ++ (List.replicate 7 0 ++ (bytesLE 8 a ++ (bytesLE 8 b ++
        (bytesLE 8 c ++ (bytesLE 8 d ++ (bytesLE 8 e ++ (bytesLE 8 f ++
        bytesLE 8 g)))))))) 0 8
      (by simp [packFooter, List.append_assoc]) rfl hFM
  · rw [slice_concat_eq _ FOOTER_MAGIC [VERSION]
      (List.replicate 7 0 ++ (bytesLE 8 a ++ (bytesLE 8 b ++ (bytesLE 8 c ++
        (bytesLE 8 d ++ (bytesLE 8 e ++ (bytesLE 8 f ++ bytesLE 8 g))))))) 8 1
      (by simp [packFooter, List.append_assoc]) hFM rfl]
    decide
  · rw [slice_concat_eq _ (FOOTER_MAGIC ++ ([VERSION] ++ List.replicate 7 0))
      (bytesLE 8 a)
      (bytesLE 8 b ++ (bytesLE 8 c ++ (bytesLE 8 d ++ (bytesLE 8 e ++
        (bytesLE 8 f ++ bytesLE 8 g))))) 16 8
      (by simp [packFooter, List.append_assoc])
      (by simp [List.length_append, hFM]) (bytesLE_length 8 a)]
    exact leVal_bytesLE 8 a (h256 ▸ ha)
  · rw [slice_concat_eq _
      (FOOTER_MAGIC ++ ([VERSION] ++ (List.replicate 7 0 ++ bytesLE 8 a)))
      (bytesLE 8 b)
      (bytesLE 8 c ++ (bytesLE 8 d ++ (bytesLE 8 e ++ (bytesLE 8 f ++
        bytesLE 8 g)))) 24 8
      (by simp [packFooter, List.append_assoc])
      (by simp [List.length_append, hFM, bytesLE_length]) (bytesLE_length 8 b)]
    exact leVal_bytesLE 8 b (h256 ▸ hb)
  · rw [slice_concat_eq _
      (FOOTER_MAGIC ++ ([VERSION] ++ (List.replicate 7 0 ++ (bytesLE 8 a ++
        bytesLE 8 b))))
      (bytesLE 8 c)
      (bytesLE 8 d ++ (bytesLE 8 e ++ (bytesLE 8 f ++ bytesLE 8 g))) 32 8
      (by simp [packFooter, List.append_assoc])
      (by simp [List.length_append, hFM, bytesLE_length]) (bytesLE_length 8 c)]
    exact leVal_bytesLE 8 c (h256 ▸ hc)
  · rw [slice_concat_eq _
      (FOOTER_MAGIC ++ ([VERSION] ++ (List.replicate 7 0 ++ (bytesLE 8 a ++
        (bytesLE 8 b ++ bytesLE 8 c)))))
      (bytesLE 8 d)
      (bytesLE 8 e ++ (bytesLE 8 f ++ bytesLE 8 g)) 40 8
      (by simp [packFooter, List.append_assoc])
      (by simp [List.length_append, hFM, bytesLE_length]) (bytesLE_length 8 d)]
    exact leVal_bytesLE 8 d (h256 ▸ hd)
  · rw [slice_concat_eq _
      (FOOTER_MAGIC ++ ([VERSION] ++ (List.replicate 7 0 ++ (bytesLE 8 a ++
        (bytesLE 8 b ++ (bytesLE 8 c ++ bytesLE 8 d))))))
      (bytesLE 8 e)
      (bytesLE 8 f ++ bytesLE 8 g) 48 8
      (by simp [packFooter, List.append_assoc])
      (by simp [List.length_append, hFM, bytesLE_length]) (bytesLE_length 8 e)]
    exact leVal_bytesLE 8 e (h256 ▸ he)
  · rw [slice_concat_eq _
      (FOOTER_MAGIC ++ ([VERSION] ++ (List.replicate 7 0 ++ (bytesLE 8 a ++
        (bytesLE 8 b ++ (bytesLE 8 c ++ (bytesLE 8 d ++ bytesLE 8 e)))))))
      (bytesLE 8 f)
      (bytesLE 8 g) 56 8
      (by simp [packFooter, List.append_assoc])
      (by simp [List.length_append, hFM, bytesLE_length]) (bytesLE_length 8 f)]
    exact leVal_bytesLE 8 f (h256 ▸ hf)
  · rw [slice_concat_eq _
      (FOOTER_MAGIC ++ ([VERSION] ++ (List.replicate 7 0 ++ (bytesLE 8 a ++
        (bytesLE 8 b ++ (bytesLE 8 c ++ (bytesLE 8 d ++ (bytesLE 8 e ++
        bytesLE 8 f))))))))
      (bytesLE 8 g)
      ([] : List Nat) 64 8
      (by simp [packFooter, List.append_assoc])
      (by simp [List.length_append, hFM, bytesLE_length]) (bytesLE_length 8 g)]
    exact leVal_bytesLE 8 g (h256 ▸ hg)

theorem parse_packFooter (a b c d e f g : Nat)
    (ha : a < 2 ^ 64) (hb : b < 2 ^ 64) (hc : c < 2 ^ 64) (hd : d < 2 ^ 64)
    (he : e < 2 ^ 64) (hf : f < 2 ^ 64) (hg : g < 2 ^ 64) :
    parse_footer (packFooter a b c d e f g) =
      .ok { magic := FOOTER_MAGIC, version := VERSION, data_start := a
            data_length := b, meta_start := c, meta_length := d
            index_start := e, index_length := f, file_count := g } := by
  unfold parse_footer
  rw [unpackFooter_packFooter a b c d e f g ha hb hc hd he hf hg]
  simp

/-- ASCII byte lists decode back to the string they encode. -/
theorem decodeAscii_strBytes (s : String) (h : ∀ b ∈ strBytes s, b < 128) :
    decodeAscii (strBytes s) = .ok s := by
  unfold decodeAscii
  rw [if_pos (List.all_eq_true.mpr (fun b hb => decide_eq_true (h b hb)))]
  have hm : (strBytes s).map Char.ofNat = s.data := by
    unfold strBytes
    rw [List.map_map]
    simp [Function.comp_def, Char.ofNat_toNat]
  rw [hm]

theorem encodeEntry_length (e : IndexEntry) :
    (encodeEntry e).length = 38 + (strBytes e.name).length := by
  simp [encodeEntry, List.length_append, bytesLE_length]
  omega

/-- Wellformedness of an index entry as the writer produces it: the name
round-trips through u16-length-prefixed ASCII and every numeric field fits
its struct field. -/
def entryWF (e : IndexEntry) : Prop :=
  (strBytes e.name).length ≤ 65535 ∧ (∀ b ∈ strBytes e.name, b < 128) ∧
  e.data_offset < 2 ^ 64 ∧ e.data_length < 2 ^ 64 ∧
  e.meta_offset < 2 ^ 64 ∧ e.meta_length < 2 ^ 64 ∧ e.flags < 2 ^ 32

/-- The body of one iteration of the index-parsing loop, spelled out so
the stepping equation `parseEntriesGo_cons` is a definitional identity. -/
def parseEntryBody (fuel : Nat) (raw : List Nat) : Except PyErr (List IndexEntry) :=
  if raw.length < 2 then .error .valueError
  else
    let name_len := leVal (raw.take 2)
    let rest := raw.drop 2
    if rest.length < name_len then .error .valueError
    else
      match decodeAscii (rest.take name_len) with
      | .error _ => .error .valueError
      | .ok name =>
        let rest2 := rest.drop name_len
        if rest2.length < ENTRY_FIXED_SIZE then .error .valueError
        else
          let e : IndexEntry :=
            { name := name
              data_offset := leVal (slice rest2 0 8)
              data_length := leVal (slice rest2 8 8)
              meta_offset := leVal (slice rest2 16 8)
              meta_length := leVal (slice rest2 24 8)
              flags := leVal (slice rest2 32 4) }
          match parseEntriesGo fuel (rest2.drop ENTRY_FIXED_SIZE) with
          | .error er => .error er
          | .ok es => .ok (e :: es)

theorem parseEntriesGo_cons (fuel b0 : Nat) (raw2 : List Nat) :
    parseEntriesGo (fuel + 1) (b0 :: raw2) = parseEntryBody fuel (b0 :: raw2) := rfl

theorem parseEntriesGo_encode : ∀ (es : List IndexEntry) (fuel : Nat),
    (∀ e ∈ es, entryWF e) →
    ((es.map encodeEntry).flatten).length ≤ fuel →
    parseEntriesGo fuel ((es.map encodeEntry).flatten) = .ok es := by
  intro es
  induction es with
  | nil =>
      intro fuel _ _
      simp only [List.map_nil, List.flatten_nil]
      cases fuel <;> rfl
  | cons e es ih =>
      intro fuel hwf hfuel
      obtain ⟨hn1, hn2, ho1, ho2, ho3, ho4, ho5⟩ := hwf e (List.mem_cons_self e es)
      have hwf2 : ∀ x ∈ es, entryWF x := fun x hx => hwf x (List.mem_cons_of_mem e hx)
      have h2_64 : (256 : Nat) ^ 8 = 2 ^ 64 := by norm_num
      have h2_32 : (256 : Nat) ^ 4 = 2 ^ 32 := by norm_num
      have h2_16 : (256 : Nat) ^ 2 = 65536 := by norm_num
      set L := (strBytes e.name).length with hL
      set rest := ((es.map encodeEntry).flatten) with hrest
      set fix := bytesLE 8 e.data_offset ++ (bytesLE 8 e.data_length ++
        (bytesLE 8 e.meta_offset ++ (bytesLE 8 e.meta_length ++
          bytesLE 4 e.flags))) with hfix
      have hfixlen : fix.length = 36 := by
        rw [hfix]
        simp [List.length_append, bytesLE_length]
      have hflat : (((e :: es).map encodeEntry).flatten) = encodeEntry e ++ rest := by
        simp [hrest]
      have hsplit1 : encodeEntry e ++ rest =
          bytesLE 2 L ++ (strBytes e.name ++ (fix ++ rest)) := by
        rw [hfix]
        simp [encodeEntry, List.append_assoc]
      have hlen : (encodeEntry e ++ rest).length = 38 + L + rest.length := by
        rw [List.length_append, encodeEntry_length]
      rw [hflat] at hfuel ⊢
      rw [hlen] at hfuel
      cases fuel with
      | zero => omega
      | succ fu =>
          cases hsh : encodeEntry e ++ rest with
          | nil =>
              have := congrArg List.length hsh
              rw [hlen] at this
              simp at this
          | cons b0 tail =>
              rw [parseEntriesGo_cons, ← hsh]
              simp only [parseEntryBody]
              have hlt2 : ¬ ((encodeEntry e ++ rest).length < 2) := by
                rw [hlen]; omega
              rw [if_neg hlt2]
              have htake2 : (encodeEntry e ++ rest).take 2 = bytesLE 2 L := by
                rw [hsplit1]
                exact List.take_left' (bytesLE_length 2 L)
              have hdrop2 : (encodeEntry e ++ rest).drop 2 =
                  strBytes e.name ++ (fix ++ rest) := by
                rw [hsplit1]
                exact List.drop_left' (bytesLE_length 2 L)
              rw [htake2, hdrop2, leVal_bytesLE 2 L (by omega)]
              have hltL : ¬ ((strBytes e.name ++ (fix ++ rest)).length < L) := by
                simp [List.length_append]
              rw [if_neg hltL]
              have htakeL : (strBytes e.name ++ (fix ++ rest)).take L =
                  strBytes e.name := List.take_left' hL.symm
              have hdropL : (strBytes e.name ++ (fix ++ rest)).drop L =
                  fix ++ rest := List.drop_left' hL.symm
              rw [htakeL, decodeAscii_strBytes e.name hn2, hdropL]
              have hlt36 : ¬ ((fix ++ rest).length < ENTRY_FIXED_SIZE) := by
                simp [List.length_append, hfixlen, ENTRY_FIXED_SIZE]
              split
              · rename_i heq
                exact absurd heq (by simp)
              rename_i name heq
              injection heq with hname
              subst hname
              rw [if_neg hlt36]
              have hs1 : slice (fix ++ rest) 0 8 = bytesLE 8 e.data_offset :=
                slice_concat_eq _ [] _
                  (bytesLE 8 e.data_length ++ (bytesLE 8 e.meta_offset ++
                    (bytesLE 8 e.meta_length ++ (bytesLE 4 e.flags ++ rest)))) 0 8
                  (by rw [hfix]; simp [List.append_assoc]) rfl (bytesLE_length 8 _)
              have hs2 : slice (fix ++ rest) 8 8 = bytesLE 8 e.data_length :=
                slice_concat_eq _ (bytesLE 8 e.data_offset) _
                  (bytesLE 8 e.meta_offset ++ (bytesLE 8 e.meta_length ++
                    (bytesLE 4 e.flags ++ rest))) 8 8
                  (by rw [hfix]; simp [List.append_assoc]) (bytesLE_length 8 _)
                  (bytesLE_length 8 _)
              have hs3 : slice (fix ++ rest) 16 8 = bytesLE 8 e.meta_offset :=
                slice_concat_eq _
                  (bytesLE 8 e.data_offset ++ bytesLE 8 e.data_length) _
                  (bytesLE 8 e.meta_length ++ (bytesLE 4 e.flags ++ rest)) 16 8
                  (by rw [hfix]; simp [List.append_assoc])
                  (by simp [List.length_append, bytesLE_length])
                  (bytesLE_length 8 _)
              have hs4 : slice (fix ++ rest) 24 8 = bytesLE 8 e.meta_length :=
                slice_concat_eq _
                  (bytesLE 8 e.data_offset ++ (bytesLE 8 e.data_length ++
                    bytesLE 8 e.meta_offset)) _
                  (bytesLE 4 e.flags ++ rest) 24 8
                  (by rw [hfix]; simp [List.append_assoc])
                  (by simp [List.length_append, bytesLE_length])
                  (bytesLE_length 8 _)
              have hs5 : slice (fix ++ rest) 32 4 = bytesLE 4 e.flags :=
                slice_concat_eq _
                  (bytesLE 8 e.data_offset ++ (bytesLE 8 e.data_length ++
                    (bytesLE 8 e.meta_offset ++ bytesLE 8 e.meta_length))) _
                  rest 32 4
                  (by rw [hfix]; simp [List.append_assoc])
                  (by simp [List.length_append, bytesLE_length])
                  (bytesLE_length 4 _)
              rw [hs1, hs2, hs3, hs4, hs5, leVal_bytesLE 8 _ (h2_64 ▸ ho1),
                leVal_bytesLE 8 _ (h2_64 ▸ ho2), leVal_bytesLE 8 _ (h2_64 ▸ ho3),
                leVal_bytesLE 8 _ (h2_64 ▸ ho4), leVal_bytesLE 4 _ (h2_32 ▸ ho5)]
              have h36 : ENTRY_FIXED_SIZE = 36 := rfl
              have hdrop36 : (fix ++ rest).drop ENTRY_FIXED_SIZE = rest := by
                rw [h36]
                exact List.drop_left' hfixlen
              rw [hdrop36, ih fu hwf2 (by omega)]

/-- The reader's index parser inverts the writer's index encoder. -/
theorem parseEntries_encode (es : List IndexEntry)
    (hwf : ∀ e ∈ es, entryWF e) :
    parseEntries ((es.map encodeEntry).flatten) = .ok es :=
  parseEntriesGo_encode es _ hwf (Nat.le_refl _)

/-- The metadata blob stored for one internally-written input triple. -/
def wBlob (i : String × List Nat × MetaDict) : List Nat :=
  metaBytes (intMeta i.2.2 i.2.1.length)

/-- Concatenation of the data payloads of a list of inputs, in order. -/
def wData (inputs : List (String × List Nat × MetaDict)) : List Nat :=
  (inputs.map (fun i => i.2.1)).flatten

/-- Concatenation of the metadata blobs of a list of inputs, in order. -/
def wMetaB (inputs : List (String × List Nat × MetaDict)) : List Nat :=
  (inputs.map wBlob).flatten

/-- The index entries recorded for a list of internal inputs, with the
data region starting at `doff` and meta offsets starting at `moff`. -/
def wEntries : Nat → Nat → List (String × List Nat × MetaDict) → List IndexEntry
  | _, _, [] => []
  | doff, moff, i :: rest =>
      { name := i.1, data_offset := doff, data_length := i.2.1.length
        meta_offset := moff, meta_length := (wBlob i).length, flags := 0 } ::
      wEntries (doff + i.2.1.length) (moff + (wBlob i).length) rest

/-- Inversion of a successful internal add_file on a writer without
external storage. -/
theorem add_file_internal_inv (w w2 : Writer) (name : String) (data : List Nat)
    (meta : MetaDict)
    (hclosed : w.closed = false) (hext : w.extEnabled = false)
    (hok : add_file w name data meta false = .ok w2) :
    validate_filename name = .ok () ∧
    w2 = { w with
      file := w.file ++ data
      metaBuf := w.metaBuf ++ metaBytes (intMeta meta data.length)
      entries := w.entries ++ [{
        name := name
        data_offset := w.file.length
        data_length := data.length
        meta_offset := w.metaBuf.length
        meta_length := (metaBytes (intMeta meta data.length)).length
        flags := 0 }] } := by
  cases hv : validate_filename name with
  | error e => simp [add_file, hclosed, hv] at hok
  | ok u =>
      cases u
      refine ⟨rfl, ?_⟩
      have hs : ((false || decide (w.big_file_threshold ≤ data.length)) &&
          w.extEnabled) = false := by
        rw [hext]
        simp
      simp only [add_file, hclosed, Bool.false_eq_true, if_false, hv, hs,
        intMeta] at hok
      split at hok
      · cases hok
      · cases hok
        rw [hclosed]
        rfl

/-- Writer state after a whole sequence of internal adds: header plus all
payloads, all metadata blobs, and the corresponding index entries. -/
theorem addAll_internal_char : ∀ (inputs : List (String × List Nat × MetaDict))
    (w w2 : Writer), w.closed = false → w.extEnabled = false →
    addAll w inputs = .ok w2 →
    (∀ i ∈ inputs, validate_filename i.1 = .ok ()) ∧
    w2 = { w with
      file := w.file ++ wData inputs
      metaBuf := w.metaBuf ++ wMetaB inputs
      entries := w.entries ++ wEntries w.file.length w.metaBuf.length inputs } := by
  intro inputs
  induction inputs with
  | nil =>
      intro w w2 hc he hok
      cases hok
      refine ⟨by simp, ?_⟩
      simp [wData, wMetaB, wEntries]
  | cons i rest ih =>
      intro w w2 hc he hok
      obtain ⟨n, d, m⟩ := i
      simp only [addAll] at hok
      cases ha : add_file w n d m false with
      | error e =>
          rw [ha] at hok
          cases hok
      | ok w1 =>
          rw [ha] at hok
          have hok2 : addAll w1 rest = .ok w2 := hok
          obtain ⟨hval, hw1⟩ := add_file_internal_inv w w1 n d m hc he ha
          obtain ⟨hvals, hw2⟩ := ih w1 w2 (by rw [hw1]; exact hc)
            (by rw [hw1]; exact he) hok2
          subst hw1
          constructor
          · intro j hj
            rcases List.mem_cons.mp hj with rfl | hmem
            · exact hval
            · exact hvals j hmem
          · rw [hw2]
            simp [wData, wMetaB, wEntries, wBlob, List.map_cons,
              List.flatten_cons, List.length_append, List.append_assoc,
              List.singleton_append]

theorem wEntries_length : ∀ (inputs : List (String × List Nat × MetaDict))
    (doff moff : Nat), (wEntries doff moff inputs).length = inputs.length := by
  intro inputs
  induction inputs with
  | nil => intro doff moff; rfl
  | cons i rest ih => intro doff moff; simp [wEntries, ih]

theorem wEntries_names : ∀ (inputs : List (String × List Nat × MetaDict))
    (doff moff : Nat),
    (wEntries doff moff inputs).map IndexEntry.name = inputs.map (·.1) := by
  intro inputs
  induction inputs with
  | nil => intro doff moff; rfl
  | cons i rest ih => intro doff moff; simp [wEntries, ih]

/-- Rebasing the relative meta offsets (as DesWriter.close does) shifts
the starting meta offset. -/
theorem wEntries_rebase : ∀ (inputs : List (String × List Nat × MetaDict))
    (doff moff ms : Nat),
    (wEntries doff moff inputs).map
      (fun e => { e with meta_offset := ms + e.meta_offset }) =
    wEntries doff (ms + moff) inputs := by
  intro inputs
  induction inputs with
  | nil => intro doff moff ms; rfl
  | cons i rest ih =>
      intro doff moff ms
      simp only [wEntries, List.map_cons, ih, Nat.add_assoc]

theorem wEntries_mem_bounds : ∀ (inputs : List (String × List Nat × MetaDict))
    (doff moff : Nat) (e : IndexEntry), e ∈ wEntries doff moff inputs →
    (∃ i ∈ inputs, e.name = i.1) ∧ e.flags = 0 ∧
    doff ≤ e.data_offset ∧
    e.data_offset + e.data_length ≤ doff + (wData inputs).length ∧
    moff ≤ e.meta_offset ∧
    e.meta_offset + e.meta_length ≤ moff + (wMetaB inputs).length := by
  intro inputs
  induction inputs with
  | nil =>
      intro doff moff e he
      exact absurd he (List.not_mem_nil e)
  | cons i rest ih =>
      intro doff moff e he
      have hdl : (wData (i :: rest)).length = i.2.1.length + (wData rest).length := by
        simp [wData]
      have hml : (wMetaB (i :: rest)).length = (wBlob i).length + (wMetaB rest).length := by
        simp [wMetaB]
      rcases List.mem_cons.mp he with rfl | hmem
      · dsimp only
        refine ⟨⟨i, List.mem_cons_self i rest, rfl⟩, rfl, Nat.le_refl _, ?_, Nat.le_refl _, ?_⟩
        · rw [hdl]; omega
        · rw [hml]; omega
      · obtain ⟨⟨j, hj, hjn⟩, hfl, h1, h2, h3, h4⟩ := ih _ _ e hmem
        refine ⟨⟨j, List.mem_cons_of_mem i hj, hjn⟩, hfl, by omega, ?_, by omega, ?_⟩
        · rw [hdl]; omega
        · rw [hml]; omega

/-- Each entry's data and meta windows slice out exactly its input's
payload and metadata blob, provided the container holds the data region at
`doff` and the meta region at `moff`. -/
theorem wEntries_forall2 : ∀ (inputs : List (String × List Nat × MetaDict))
    (doff moff : Nat) (C : List Nat),
    slice C doff (wData inputs).length = wData inputs →
    slice C moff (wMetaB inputs).length = wMetaB inputs →
    List.Forall₂ (fun i e => e.name = i.1 ∧ e.flags = 0 ∧
      slice C e.data_offset e.data_length = i.2.1 ∧
      slice C e.meta_offset e.meta_length = wBlob i)
      inputs (wEntries doff moff inputs) := by
  intro inputs
  induction inputs with
  | nil => intro doff moff C _ _; exact List.Forall₂.nil
  | cons i rest ih =>
      intro doff moff C hD hM
      have hDc : slice C doff (i.2.1.length + (wData rest).length) =
          i.2.1 ++ wData rest := by
        have hw : wData (i :: rest) = i.2.1 ++ wData rest := by simp [wData]
        rw [hw, List.length_append] at hD
        exact hD
      have hMc : slice C moff ((wBlob i).length + (wMetaB rest).length) =
          wBlob i ++ wMetaB rest := by
        have hw : wMetaB (i :: rest) = wBlob i ++ wMetaB rest := by simp [wMetaB]
        rw [hw, List.length_append] at hM
        exact hM
      obtain ⟨hD1, hD2⟩ := slice_split C i.2.1 (wData rest) doff hDc
      obtain ⟨hM1, hM2⟩ := slice_split C (wBlob i) (wMetaB rest) moff hMc
      exact List.Forall₂.cons ⟨rfl, rfl, hD1, hM1⟩
        (ih (doff + i.2.1.length) (moff + (wBlob i).length) C hD2 hM2)

theorem dictGet_append_of_none {α : Type} (a b : List (String × α)) (k : String)
    (h : dictGet a k = none) : dictGet (a ++ b) k = dictGet b k := by
  induction a with
  | nil => rfl
  | cons p rest ih =>
      obtain ⟨k0, v0⟩ := p
      by_cases hk : k0 = k
      · simp [dictGet, hk] at h
      · simp only [dictGet, hk, if_false] at h
        simp only [List.cons_append, dictGet, hk, if_false]
        exact ih h

theorem foldl_dictSet_eq : ∀ (es : List IndexEntry)
    (acc : List (String × IndexEntry)),
    (∀ e ∈ es, dictGet acc e.name = none) →
    (es.map IndexEntry.name).Nodup →
    es.foldl (fun d e => dictSet d e.name e) acc =
      acc ++ es.map (fun e => (e.name, e)) := by
  intro es
  induction es with
  | nil => intro acc _ _; simp
  | cons e es ih =>
      intro acc hnone hnd
      rw [List.map_cons, List.nodup_cons] at hnd
      rw [List.foldl_cons,
        dictSet_of_not_mem acc e.name e (hnone e (List.mem_cons_self e es)),
        ih (acc ++ [(e.name, e)]) ?_ hnd.2]
      · simp [List.append_assoc]
      · intro x hx
        rw [dictGet_append_of_none _ _ _ (hnone x (List.mem_cons_of_mem e hx))]
        have hne : e.name ≠ x.name := fun hq =>
          hnd.1 (hq ▸ List.mem_map_of_mem IndexEntry.name hx)
        simp [dictGet, hne]

/-- With pairwise-distinct names the reader's index dict is the plain
association list of (name, entry) pairs. -/
theorem buildIdx_eq_map (es : List IndexEntry)
    (h : (es.map IndexEntry.name).Nodup) :
    buildIdx es = es.map (fun e => (e.name, e)) := by
  unfold buildIdx
  rw [foldl_dictSet_eq es [] (fun _ _ => rfl) h]
  simp

theorem forall2_dictGet {R : (String × List Nat × MetaDict) → IndexEntry → Prop}
    (hname : ∀ i e, R i e → e.name = i.1) :
    ∀ (inputs : List (String × List Nat × MetaDict)) (entries : List IndexEntry),
    List.Forall₂ R inputs entries →
    (inputs.map (·.1)).Nodup →
    ∀ i ∈ inputs, ∃ e, R i e ∧
      dictGet (entries.map (fun e => (e.name, e))) i.1 = some e := by
  intro inputs entries h
  induction h with
  | nil =>
      intro _ i hi
      exact absurd hi (List.not_mem_nil i)
  | @cons i0 e0 rest erest hR hrest ih =>
      intro hnd i hi
      rw [List.map_cons, List.nodup_cons] at hnd
      rcases List.mem_cons.mp hi with rfl | hmem
      · refine ⟨e0, hR, ?_⟩
        have he0 : e0.name = i.1 := hname _ _ hR
        simp [dictGet, he0]
      · have hne : e0.name ≠ i.1 := by
          rw [hname _ _ hR]
          intro hq
          exact hnd.1 (hq ▸ List.mem_map_of_mem _ hmem)
        obtain ⟨e, hRe, hget⟩ := ih hnd.2 i hmem
        exact ⟨e, hRe, by simp [List.map_cons, dictGet, hne, hget]⟩

/-- The index region bytes of the container produced for `inputs`. -/
def wIndexBytes (inputs : List (String × List Nat × MetaDict)) : List Nat :=
  ((wEntries headerBytes.length (headerBytes ++ wData inputs).length inputs).map
    encodeEntry).flatten

/-- The footer bytes of the container produced for `inputs`. -/
def wFooter (inputs : List (String × List Nat × MetaDict)) : List Nat :=
  packFooter headerBytes.length (wData inputs).length
    (headerBytes ++ wData inputs).length (wMetaB inputs).length
    ((headerBytes ++ wData inputs) ++ wMetaB inputs).length
    (wIndexBytes inputs).length inputs.length

/-- The parsed footer of the container produced for `inputs`. -/
def wFooterRec (inputs : List (String × List Nat × MetaDict)) : Footer :=
  { magic := FOOTER_MAGIC
    version := VERSION
    data_start := headerBytes.length
    data_length := (wData inputs).length
    meta_start := (headerBytes ++ wData inputs).length
    meta_length := (wMetaB inputs).length
    index_start := ((headerBytes ++ wData inputs) ++ wMetaB inputs).length
    index_length := (wIndexBytes inputs).length
    file_count := inputs.length }

theorem length_le_encode_flatten : ∀ (es : List IndexEntry),
    es.length ≤ ((es.map encodeEntry).flatten).length := by
  intro es
  induction es with
  | nil => simp
  | cons e es ih =>
      simp only [List.map_cons, List.flatten_cons, List.length_append,
        List.length_cons]
      have := encodeEntry_length e
      omega

theorem allowedChar_lt (c : Char) (h : allowedChar c = true) : c.toNat < 128 := by
  simp [allowedChar] at h
  omega

/-- Inversion of a successful filename validation. -/
theorem validate_filename_inv (name : String)
    (h : validate_filename name = .ok ()) :
    (strBytes name).length ≤ 65535 ∧ ∀ b ∈ strBytes name, b < 128 := by
  unfold validate_filename at h
  split at h
  · cases h
  · split at h
    · cases h
    · split at h
      · cases h
      · rename_i h1 h2 h3
        constructor
        · have hmax : MAX_FILENAME_LENGTH = 65535 := rfl
          omega
        · intro b hb
          obtain ⟨c, hc, rfl⟩ := List.mem_map.mp hb
          exact allowedChar_lt c ((List.all_eq_true.mp (not_not.mp h3)) c hc)

theorem get_file_of_loadIndex (r : Reader) (idx : List (String × IndexEntry))
    (name : String) (hl : loadIndex r = .ok idx) :
    get_file r name = get_file_idx r idx name := by
  unfold get_file
  rw [hl]

theorem get_meta_raw_of_loadIndex (r : Reader) (idx : List (String × IndexEntry))
    (name : String) (hl : loadIndex r = .ok idx) :
    get_meta_raw r name = get_meta_raw_idx r idx name := by
  unfold get_meta_raw
  rw [hl]

theorem list_files_of_loadIndex (r : Reader) (idx : List (String × IndexEntry))
    (hl : loadIndex r = .ok idx) : list_files r = .ok (idx.map (·.1)) := by
  unfold list_files
  rw [hl]

theorem get_file_idx_of_get (r : Reader) (idx : List (String × IndexEntry))
    (name : String) (e : IndexEntry) (hget : dictGet idx name = some e) :
    get_file_idx r idx name =
      if e.isExternal then read_external r e.name
      else .ok (slice r.file e.data_offset e.data_length) := by
  unfold get_file_idx
  rw [hget]

theorem get_meta_raw_idx_of_get (r : Reader) (idx : List (String × IndexEntry))
    (name : String) (e : IndexEntry) (hget : dictGet idx name = some e) :
    get_meta_raw_idx r idx name = .ok (slice r.file e.meta_offset e.meta_length) := by
  unfold get_meta_raw_idx
  rw [hget]

/-- Round trip for a non-empty input sequence: the container written by a
writer without external storage is accepted by the reader and returns every
payload, the stored ("size"-augmented) metadata blob, and the input names. -/
theorem c1_roundtrip_aux (threshold : Nat)
    (inputs : List (String × List Nat × MetaDict)) (w : Writer)
    (hne : inputs ≠ [])
    (hw : addAll (newWriter threshold none) inputs = .ok w)
    (hnodup : (inputs.map (·.1)).Nodup)
    (hsize : (closeBytes w).length < 2 ^ 64) :
    ∃ r, mkReader (closeBytes w) [] = .ok r ∧
      list_files r = .ok (inputs.map (·.1)) ∧
      ∀ i ∈ inputs,
        get_file r i.1 = .ok i.2.1 ∧
        get_meta_raw r i.1 = .ok (metaBytes (intMeta i.2.2 i.2.1.length)) := by
  obtain ⟨hvals, hwform⟩ :=
    addAll_internal_char inputs (newWriter threshold none) w rfl rfl hw
  have h16 : headerBytes.length = 16 := headerBytes_length
  have hclose : closeBytes w = headerBytes ++ (wData inputs ++ (wMetaB inputs ++
      (wIndexBytes inputs ++ wFooter inputs))) := by
    rw [hwform]
    simp only [closeBytes, newWriter, wIndexBytes, wFooter, List.nil_append,
      List.append_nil, List.length_nil]
    rw [wEntries_rebase, Nat.add_zero]
    have harith : (headerBytes ++ wData inputs).length - headerBytes.length =
        (wData inputs).length := by
      simp [List.length_append]
    rw [harith]
    simp [List.append_assoc, wEntries_length]
  have hFlen : (wFooter inputs).length = 72 := by
    unfold wFooter
    exact packFooter_length _ _ _ _ _ _ _
  have hC : (closeBytes w).length = headerBytes.length + ((wData inputs).length +
      ((wMetaB inputs).length + ((wIndexBytes inputs).length + 72))) := by
    rw [hclose]
    simp only [List.length_append, hFlen]
  have hcnt : inputs.length ≤ (wIndexBytes inputs).length := by
    have h1 := length_le_encode_flatten
      (wEntries headerBytes.length (headerBytes ++ wData inputs).length inputs)
    rw [wEntries_length] at h1
    exact h1
  have b1 : headerBytes.length < 2 ^ 64 := by
    rw [h16]
    norm_num
  have b2 : (wData inputs).length < 2 ^ 64 := by omega
  have b3 : (headerBytes ++ wData inputs).length < 2 ^ 64 := by
    rw [List.length_append]
    omega
  have b4 : (wMetaB inputs).length < 2 ^ 64 := by omega
  have b5 : ((headerBytes ++ wData inputs) ++ wMetaB inputs).length < 2 ^ 64 := by
    simp only [List.length_append]
    omega
  have b6 : (wIndexBytes inputs).length < 2 ^ 64 := by omega
  have b7 : inputs.length < 2 ^ 64 := by omega
  have hwfE1 : ∀ e ∈ wEntries headerBytes.length
      (headerBytes ++ wData inputs).length inputs, entryWF e := by
    intro e he
    obtain ⟨⟨i, hi, hname⟩, hfl, hd1, hd2, hm1, hm2⟩ :=
      wEntries_mem_bounds inputs _ _ e he
    obtain ⟨hv1, hv2⟩ := validate_filename_inv i.1 (hvals i hi)
    rw [List.length_append] at hm1 hm2
    refine ⟨by rw [hname]; exact hv1, by rw [hname]; exact hv2,
      by omega, by omega, by omega, by omega, by rw [hfl]; norm_num⟩
  have hndE : ((wEntries headerBytes.length (headerBytes ++ wData inputs).length
      inputs).map IndexEntry.name).Nodup := by
    rw [wEntries_names]
    exact hnodup
  have hIBne : ¬ ((wIndexBytes inputs).length = 0) := by
    have h1 : inputs.length ≠ 0 := fun hq => hne (List.length_eq_zero.mp hq)
    omega
  have hmin : ¬ ((closeBytes w).length < MIN_DES_FILE_SIZE) := by
    have hms : MIN_DES_FILE_SIZE = 88 := rfl
    omega
  have hfsl : slice (closeBytes w) ((closeBytes w).length - FOOTER_SIZE)
      FOOTER_SIZE = wFooter inputs := by
    apply slice_concat_eq (closeBytes w)
      (headerBytes ++ (wData inputs ++ (wMetaB inputs ++ wIndexBytes inputs)))
      (wFooter inputs) []
    · rw [hclose]
      simp [List.append_assoc]
    · simp only [List.length_append]
      have hFS : FOOTER_SIZE = 72 := rfl
      omega
    · exact hFlen
  have hunp : parse_footer (wFooter inputs) = .ok (wFooterRec inputs) := by
    unfold wFooter wFooterRec
    exact parse_packFooter _ _ _ _ _ _ _ b1 b2 b3 b4 b5 b6 b7
  have hmk : mkReader (closeBytes w) [] =
      .ok ⟨closeBytes w, wFooterRec inputs, []⟩ := by
    unfold mkReader
    rw [if_neg hmin, hfsl, hunp]
  have hisl : slice (closeBytes w)
      ((headerBytes ++ wData inputs) ++ wMetaB inputs).length
      (wIndexBytes inputs).length = wIndexBytes inputs := by
    apply slice_concat_eq (closeBytes w)
      (headerBytes ++ (wData inputs ++ wMetaB inputs)) (wIndexBytes inputs)
      (wFooter inputs)
    · rw [hclose]
      simp [List.append_assoc]
    · simp only [List.length_append]
      omega
    · rfl
  have hparse : parseEntries (wIndexBytes inputs) = .ok (wEntries
      headerBytes.length (headerBytes ++ wData inputs).length inputs) :=
    parseEntries_encode _ hwfE1
  have hbuild := buildIdx_eq_map _ hndE
  have hload : loadIndex ⟨closeBytes w, wFooterRec inputs, []⟩ =
      .ok ((wEntries headerBytes.length (headerBytes ++ wData inputs).length
        inputs).map (fun e => (e.name, e))) := by
    unfold loadIndex
    dsimp only [wFooterRec]
    rw [if_neg hIBne, hisl, hparse]
    exact congrArg Except.ok hbuild
  have hDsl : slice (closeBytes w) headerBytes.length (wData inputs).length =
      wData inputs := by
    apply slice_concat_eq (closeBytes w) headerBytes (wData inputs)
      (wMetaB inputs ++ (wIndexBytes inputs ++ wFooter inputs))
    · exact hclose
    · rfl
    · rfl
  have hMsl : slice (closeBytes w) (headerBytes ++ wData inputs).length
      (wMetaB inputs).length = wMetaB inputs := by
    apply slice_concat_eq (closeBytes w) (headerBytes ++ wData inputs)
      (wMetaB inputs) (wIndexBytes inputs ++ wFooter inputs)
    · rw [hclose]
      simp [List.append_assoc]
    · rfl
    · rfl
  have hF2 := wEntries_forall2 inputs headerBytes.length
    (headerBytes ++ wData inputs).length (closeBytes w) hDsl hMsl
  refine ⟨⟨closeBytes w, wFooterRec inputs, []⟩, hmk, ?_, ?_⟩
  · rw [list_files_of_loadIndex _ _ hload, List.map_map]
    have hcomp : ((fun p : String × IndexEntry => p.1) ∘
        (fun e : IndexEntry => (e.name, e))) = IndexEntry.name := rfl
    rw [hcomp, wEntries_names]
  · intro i hi
    obtain ⟨e, hRe, hget⟩ :=
      forall2_dictGet (fun i e h => h.1) inputs _ hF2 hnodup i hi
    obtain ⟨hnm, hfl, hslD, hslM⟩ := hRe
    constructor
    · rw [get_file_of_loadIndex _ _ _ hload, get_file_idx_of_get _ _ _ e hget]
      have hx : e.isExternal = false := by
        simp [IndexEntry.isExternal, hfl]
      rw [hx]
      simp only [Bool.false_eq_true, if_false]
      rw [hslD]
    · rw [get_meta_raw_of_loadIndex _ _ _ hload,
        get_meta_raw_idx_of_get _ _ _ e hget]
      rw [show slice (Reader.mk (closeBytes w) (wFooterRec inputs) []).file
        e.meta_offset e.meta_length = slice (closeBytes w) e.meta_offset
        e.meta_length from rfl, hslM]
      rfl

set_option maxRecDepth 200000 in
/-- C1 (amended): round trip through DesWriter.add_file / close and
DesReader for any sequence of accepted inputs on a writer without external
storage: the reader accepts the container, list_files returns exactly the
input names, get_file returns every payload, and the stored metadata blob
is the caller's dict augmented with "size" = len(data) (not the caller's
dict itself, which is the corrected part of the claim). -/
theorem c1_roundtrip (threshold : Nat)
    (inputs : List (String × List Nat × MetaDict)) (w : Writer)
    (hw : addAll (newWriter threshold none) inputs = .ok w)
    (hnodup : (inputs.map (·.1)).Nodup)
    (hsize : (closeBytes w).length < 2 ^ 64) :
    ∃ r, mkReader (closeBytes w) [] = .ok r ∧
      list_files r = .ok (inputs.map (·.1)) ∧
      ∀ i ∈ inputs,
        get_file r i.1 = .ok i.2.1 ∧
        get_meta_raw r i.1 = .ok (metaBytes (intMeta i.2.2 i.2.1.length)) := by
  cases inputs with
  | nil =>
      injection hw with hww
      subst hww
      have hcb : closeBytes (newWriter threshold none) =
          headerBytes ++ packFooter 16 0 16 0 16 0 0 := by
        simp [closeBytes, newWriter, headerBytes_length]
      rw [hcb]
      refine ⟨⟨headerBytes ++ packFooter 16 0 16 0 16 0 0,
        ⟨FOOTER_MAGIC, VERSION, 16, 0, 16, 0, 16, 0, 0⟩, []⟩,
        by decide, by decide, ?_⟩
      intro i hi
      exact absurd hi (List.not_mem_nil i)
  | cons a rest =>
      exact c1_roundtrip_aux threshold (a :: rest) w (by simp) hw hnodup hsize

/-- The writer state of the C1 counterexample: one file "a" = bytes
[7, 8, 9] with an empty caller metadata dict. -/
def c1Writer : Writer :=
  match addAll (newWriter 1000 none) [("a", [7, 8, 9], [])] with
  | .ok w => w
  | .error _ => newWriter 1000 none

def c1Reader : Reader :=
  match mkReader (closeBytes c1Writer) [] with
  | .ok r => r
  | .error _ => ⟨[], ⟨[], 0, 0, 0, 0, 0, 0, 0, 0⟩, []⟩

set_option maxRecDepth 200000 in
/-- C1: counterexample to the literal claim.  The round trip preserves the
payload and the name list, but get_meta does not return the caller's meta
dict: the stored blob is \x7b"size":3\x7d, the json.dumps image of the
augmented dict, not of the empty dict the caller passed. -/
theorem c1_counterexample :
    addAll (newWriter 1000 none) [("a", [7, 8, 9], [])] = .ok c1Writer ∧
    mkReader (closeBytes c1Writer) [] = .ok c1Reader ∧
    get_file c1Reader "a" = .ok [7, 8, 9] ∧
    list_files c1Reader = .ok ["a"] ∧
    get_meta_raw c1Reader "a" = .ok (metaBytes (intMeta [] 3)) ∧
    get_meta_raw c1Reader "a" ≠ .ok (metaBytes ([] : MetaDict)) := by
  refine ⟨by decide, by decide, by decide, by decide, by decide, by decide⟩

def c1wInputs : List (String × List Nat × MetaDict) :=
  [("a.txt", [1, 2], [("k", .s "v")]), ("b", [3, 4, 5], [])]

def c1wWriter : Writer :=
  match addAll (newWriter 1000 none) c1wInputs with
  | .ok w => w
  | .error _ => newWriter 1000 none

set_option maxRecDepth 200000 in
theorem c1_roundtrip_witness :
    ∃ r, mkReader (closeBytes c1wWriter) [] = .ok r ∧
      list_files r = .ok (c1wInputs.map (·.1)) ∧
      ∀ i ∈ c1wInputs,
        get_file r i.1 = .ok i.2.1 ∧
        get_meta_raw r i.1 = .ok (metaBytes (intMeta i.2.2 i.2.1.length)) :=
  c1_roundtrip 1000 c1wInputs c1wWriter (by decide) (by decide) (by decide)

/-! ### C8: retriever container key -/

set_option maxRecDepth 1000000 in
/-- C8: counterexample to the hex shard label.  For a well-formed name the
shard id (top 8 bits of the real SHA-256 of the name) is 166 = 0xa6, and
the key uses the zero-padded DECIMAL label "shard_166.des", not the
claimed lowercase-hex "shard_a6.des". -/
theorem c8_counterexample :
    get_container_key "" 8 "DES_20250101_(0123456789AB_7F)" =
      .ok "2025-01-01/shard_166.des" ∧
    consistent_hash "DES_20250101_(0123456789AB_7F)" 8 = .ok 166 ∧
    get_container_key "" 8 "DES_20250101_(0123456789AB_7F)" ≠
      .ok "2025-01-01/shard_a6.des" := by
  refine ⟨by decide, by decide, by decide⟩

/-- C8 (amended): for every name with a valid YYYYMMDD group the retriever
builds `<prefix>/<YYYY-MM-DD>/shard_<DD>.des` where the label is the shard
id — the top shard_bits bits of SHA-256(name) — zero-padded to width 2 in
DECIMAL (f"{shard_id:02d}"), and the configured prefix is stripped of
trailing slashes and prepended only when non-empty. -/
theorem c8_container_key (s3Pre : String) (bits : Nat) (name day : String)
    (hday : parse_day name = .ok day)
    (hbits : 1 ≤ bits ∧ bits ≤ 256) :
    get_container_key s3Pre bits name =
      .ok (if s3Pre ≠ "" then
          rstripSlash s3Pre ++ "/" ++
            (day ++ "/shard_" ++
              pad2 ((sha256Int name >>> (256 - bits)) &&& (2 ^ bits - 1)) ++ ".des")
        else day ++ "/shard_" ++
          pad2 ((sha256Int name >>> (256 - bits)) &&& (2 ^ bits - 1)) ++ ".des") := by
  unfold get_container_key consistent_hash
  rw [hday, if_neg (by omega)]

set_option maxRecDepth 1000000 in
theorem c8_container_key_witness :
    get_container_key "data/" 8 "DES_20250101_(0123456789AB_7F)" =
      .ok (if ("data/" : String) ≠ "" then
          rstripSlash "data/" ++ "/" ++
            ("2025-01-01" ++ "/shard_" ++
              pad2 ((sha256Int "DES_20250101_(0123456789AB_7F)" >>> (256 - 8)) &&&
                (2 ^ 8 - 1)) ++ ".des")
        else "2025-01-01" ++ "/shard_" ++
          pad2 ((sha256Int "DES_20250101_(0123456789AB_7F)" >>> (256 - 8)) &&&
            (2 ^ 8 - 1)) ++ ".des") :=
  c8_container_key "data/" 8 "DES_20250101_(0123456789AB_7F)" "2025-01-01"
    (by decide) (by decide)

/-! ### C9: partial-container recovery sweep -/

theorem dictGet_removeKey_self (s3 : S3Store) (k : String) :
    dictGet (removeKey s3 k) k = none := by
  induction s3 with
  | nil => rfl
  | cons p rest ih =>
      obtain ⟨k0, v0⟩ := p
      by_cases hk : k0 = k
      · subst hk
        have h1 : removeKey ((k0, v0) :: rest) k0 = removeKey rest k0 := by
          simp [removeKey, List.filter_cons]
        rw [h1]
        exact ih
      · have h1 : removeKey ((k0, v0) :: rest) k = (k0, v0) :: removeKey rest k := by
          simp [removeKey, List.filter_cons, hk]
        rw [h1]
        simp [dictGet, hk, ih]

theorem dictGet_removeKey_other (s3 : S3Store) (k k2 : String) (h : k2 ≠ k) :
    dictGet (removeKey s3 k) k2 = dictGet s3 k2 := by
  induction s3 with
  | nil => rfl
  | cons p rest ih =>
      obtain ⟨k0, v0⟩ := p
      by_cases hk : k0 = k
      · subst hk
        have h1 : removeKey ((k0, v0) :: rest) k0 = removeKey rest k0 := by
          simp [removeKey, List.filter_cons]
        rw [h1, ih]
        simp only [dictGet]
        rw [if_neg (fun hq => h hq.symm)]
      · have h1 : removeKey ((k0, v0) :: rest) k = (k0, v0) :: removeKey rest k := by
          simp [removeKey, List.filter_cons, hk]
        rw [h1]
        by_cases hk2 : k0 = k2 <;> simp [dictGet, hk2, ih]

/-- Absent object: the row is marked failed, the store is untouched. -/
theorem processPartial_absent (s3 : S3Store) (now : Int) (r : ContainerRow)
    (h : s3_exists s3 r.s3_key = false) :
    processPartial s3 now r =
      ({ r with status := "failed", finalized_at := some now }, s3) := by
  unfold processPartial
  rw [h]
  simp

/-- Present but corrupt object: the row is marked failed and the object is
deleted from the store. -/
theorem processPartial_invalid (s3 : S3Store) (now : Int) (r : ContainerRow)
    (h1 : s3_exists s3 r.s3_key = true)
    (h2 : (validate_container s3 r.s3_key).1 = false) :
    processPartial s3 now r =
      ({ r with status := "failed", finalized_at := some now },
        removeKey s3 r.s3_key) := by
  unfold processPartial
  rw [h1]
  simp [h2]

/-- Present and valid object: the row becomes uploaded with finalized_at
stamped and file_count synchronized from the parsed footer. -/
theorem processPartial_valid (s3 : S3Store) (now : Int) (r : ContainerRow)
    (h1 : s3_exists s3 r.s3_key = true)
    (h2 : (validate_container s3 r.s3_key).1 = true) :
    processPartial s3 now r =
      ({ r with
          status := "uploaded"
          finalized_at := some now
          file_count := (validate_container s3 r.s3_key).2.getD r.file_count },
        s3) := by
  unfold processPartial
  rw [h1]
  simp [h2]

theorem cleanup_cons_neg (r : ContainerRow) (rest : List ContainerRow)
    (s3 : S3Store) (now cutoff : Int)
    (hsel : partialSelected r cutoff = false) :
    cleanup_partial_containers (r :: rest) s3 now cutoff =
      (r :: (cleanup_partial_containers rest s3 now cutoff).1,
       (cleanup_partial_containers rest s3 now cutoff).2.1,
       (cleanup_partial_containers rest s3 now cutoff).2.2) := by
  show (if partialSelected r cutoff then _ else _) = _
  rw [hsel]
  simp

theorem cleanup_cons_pos (r : ContainerRow) (rest : List ContainerRow)
    (s3 : S3Store) (now cutoff : Int)
    (hsel : partialSelected r cutoff = true) :
    cleanup_partial_containers (r :: rest) s3 now cutoff =
      ((processPartial s3 now r).1 ::
        (cleanup_partial_containers rest (processPartial s3 now r).2
          now cutoff).1,
       (cleanup_partial_containers rest (processPartial s3 now r).2
          now cutoff).2.1,
       (cleanup_partial_containers rest (processPartial s3 now r).2
          now cutoff).2.2 + 1) := by
  show (if partialSelected r cutoff then _ else _) = _
  rw [hsel]
  simp

/-- The per-row action depends on the store only through the row's own
key; a congruent store yields the same updated row, and the returned store
is either unchanged or has exactly the row's key removed (the latter
exactly when the object exists but fails validation). -/
theorem processPartial_congr (s31 s32 : S3Store) (now : Int) (r : ContainerRow)
    (hk : dictGet s31 r.s3_key = dictGet s32 r.s3_key) :
    (processPartial s31 now r).1 = (processPartial s32 now r).1 ∧
    ((processPartial s31 now r).2 = s31 ∨
      ((processPartial s31 now r).2 = removeKey s31 r.s3_key ∧
        s3_exists s32 r.s3_key = true ∧
        (validate_container s32 r.s3_key).1 = false)) ∧
    (s3_exists s32 r.s3_key = true →
      (validate_container s32 r.s3_key).1 = false →
      (processPartial s31 now r).2 = removeKey s31 r.s3_key) := by
  have he : s3_exists s31 r.s3_key = s3_exists s32 r.s3_key := by
    simp [s3_exists, hk]
  have hv : validate_container s31 r.s3_key = validate_container s32 r.s3_key := by
    unfold validate_container
    rw [hk]
  by_cases hex : s3_exists s32 r.s3_key = true
  · by_cases hval : (validate_container s32 r.s3_key).1 = true
    · rw [processPartial_valid s31 now r (he.trans hex) (by rw [hv]; exact hval),
        processPartial_valid s32 now r hex hval, hv]
      refine ⟨rfl, Or.inl rfl, fun _ hq => absurd hval (by rw [hq]; simp)⟩
    · have hval' : (validate_container s32 r.s3_key).1 = false := by
        simpa using hval
      rw [processPartial_invalid s31 now r (he.trans hex) (by rw [hv]; exact hval'),
        processPartial_invalid s32 now r hex hval']
      exact ⟨rfl, Or.inr ⟨rfl, hex, hval'⟩, fun _ _ => rfl⟩
  · have hex' : s3_exists s32 r.s3_key = false := by simpa using hex
    rw [processPartial_absent s31 now r (he.trans hex'),
      processPartial_absent s32 now r hex']
    exact ⟨rfl, Or.inl rfl, fun hq _ => absurd hq (by rw [hex']; simp)⟩

/-- The sweep over a row list, relative to a snapshot `s3` of the store
whose entries at the still-pending selected keys agree with the current
store `s3cur`: rows map pointwise through the per-row action taken against
the snapshot, the action count is the number of selected rows, and the
final store is the current one minus the keys of selected rows whose
object exists but fails validation. -/
theorem cleanup_aux : ∀ (db : List ContainerRow) (s3cur s3 : S3Store)
    (now cutoff : Int),
    (∀ r ∈ db, partialSelected r cutoff = true →
      dictGet s3cur r.s3_key = dictGet s3 r.s3_key) →
    ((db.filter (fun r => partialSelected r cutoff)).map
      (fun r => r.s3_key)).Nodup →
    (cleanup_partial_containers db s3cur now cutoff).1 =
      db.map (fun r => if partialSelected r cutoff
        then (processPartial s3 now r).1 else r) ∧
    (cleanup_partial_containers db s3cur now cutoff).2.2 =
      (db.filter (fun r => partialSelected r cutoff)).length ∧
    (∀ k, dictGet (cleanup_partial_containers db s3cur now cutoff).2.1 k =
      if ∃ r ∈ db, partialSelected r cutoff = true ∧ r.s3_key = k ∧
          s3_exists s3 k = true ∧ (validate_container s3 k).1 = false
        then none else dictGet s3cur k) := by
  intro db
  induction db with
  | nil =>
      intro s3cur s3 now cutoff hsame hnd
      refine ⟨rfl, rfl, fun k => ?_⟩
      rw [if_neg (by simp)]
      rfl
  | cons r rest ih =>
      intro s3cur s3 now cutoff hsame hnd
      by_cases hsel : partialSelected r cutoff = true
      · have hk := hsame r (List.mem_cons_self r rest) hsel
        obtain ⟨hc1, hc2, hc3⟩ := processPartial_congr s3cur s3 now r hk
        have hfc : (r :: rest).filter (fun r => partialSelected r cutoff) =
            r :: rest.filter (fun r => partialSelected r cutoff) := by
          simp [List.filter_cons, hsel]
        rw [hfc, List.map_cons, List.nodup_cons] at hnd
        have hsame2 : ∀ x ∈ rest, partialSelected x cutoff = true →
            dictGet (processPartial s3cur now r).2 x.s3_key =
              dictGet s3 x.s3_key := by
          intro x hx hxsel
          have hxk : x.s3_key ≠ r.s3_key := by
            intro hq
            exact hnd.1 (hq ▸ List.mem_map_of_mem _
              (List.mem_filter.mpr ⟨hx, hxsel⟩))
          rcases hc2 with h | ⟨h, _, _⟩
          · rw [h]
            exact hsame x (List.mem_cons_of_mem r hx) hxsel
          · rw [h, dictGet_removeKey_other _ _ _ hxk]
            exact hsame x (List.mem_cons_of_mem r hx) hxsel
        obtain ⟨ih1, ih2, ih3⟩ :=
          ih (processPartial s3cur now r).2 s3 now cutoff hsame2 hnd.2
        rw [cleanup_cons_pos r rest s3cur now cutoff hsel]
        refine ⟨?_, ?_, fun k => ?_⟩
        · rw [List.map_cons, if_pos hsel, ih1, hc1]
        · rw [ih2, hfc, List.length_cons]
        · rw [ih3 k]
          by_cases hexr : ∃ x ∈ rest, partialSelected x cutoff = true ∧
              x.s3_key = k ∧ s3_exists s3 k = true ∧
              (validate_container s3 k).1 = false
          · rw [if_pos hexr]
            obtain ⟨x, hx, hq⟩ := hexr
            rw [if_pos ⟨x, List.mem_cons_of_mem r hx, hq⟩]
          · rw [if_neg hexr]
            by_cases hr : r.s3_key = k ∧ s3_exists s3 k = true ∧
                (validate_container s3 k).1 = false
            · rw [if_pos ⟨r, List.mem_cons_self r rest, hsel, hr⟩]
              obtain ⟨hrk, hrex, hrval⟩ := hr
              rw [hc3 (by rw [hrk]; exact hrex) (by rw [hrk]; exact hrval),
                ← hrk, dictGet_removeKey_self]
            · rw [if_neg ?_]
              · rcases hc2 with h | ⟨h, hex2, hval2⟩
                · rw [h]
                · rw [h]
                  have hne : k ≠ r.s3_key := by
                    intro hq
                    exact hr ⟨hq.symm, by rw [hq]; exact hex2,
                      by rw [hq]; exact hval2⟩
                  rw [dictGet_removeKey_other _ _ _ hne]
              · rintro ⟨x, hx, hq⟩
                rcases List.mem_cons.mp hx with rfl | hxm
                · exact hr ⟨hq.2.1, hq.2.2⟩
                · exact hexr ⟨x, hxm, hq⟩
      · have hsel' : partialSelected r cutoff = false := Bool.eq_false_iff.mpr hsel
        have hfc : (r :: rest).filter (fun r => partialSelected r cutoff) =
            rest.filter (fun r => partialSelected r cutoff) := by
          simp [List.filter_cons, hsel']
        rw [hfc] at hnd
        obtain ⟨ih1, ih2, ih3⟩ := ih s3cur s3 now cutoff
          (fun x hx hq => hsame x (List.mem_cons_of_mem r hx) hq) hnd
        rw [cleanup_cons_neg r rest s3cur now cutoff hsel']
        refine ⟨?_, ?_, fun k => ?_⟩
        · rw [List.map_cons, if_neg hsel, ih1]
        · rw [ih2, hfc]
        · rw [ih3 k]
          have hiff : (∃ x ∈ rest, partialSelected x cutoff = true ∧
              x.s3_key = k ∧ s3_exists s3 k = true ∧
              (validate_container s3 k).1 = false) ↔
              (∃ x ∈ r :: rest, partialSelected x cutoff = true ∧
                x.s3_key = k ∧ s3_exists s3 k = true ∧
                (validate_container s3 k).1 = false) := by
            constructor
            · rintro ⟨x, hx, hq⟩
              exact ⟨x, List.mem_cons_of_mem r hx, hq⟩
            · rintro ⟨x, hx, hq⟩
              rcases List.mem_cons.mp hx with rfl | hxm
              · exact absurd hq.1 hsel
              · exact ⟨x, hxm, hq⟩
          exact if_congr hiff rfl rfl

/-- C9: the recovery sweep acts exactly on the rows with status "writing"
and created_at older than the grace cutoff (all other rows are returned
unchanged, one action is counted per selected row); for each selected row
the action against the store is: object absent → the row becomes "failed";
present but failing footer validation → the object is deleted and the row
becomes "failed"; footer valid → the row becomes "uploaded" with
finalized_at stamped (and file_count synchronized from the footer).  The
distinct-keys hypothesis makes each row's branch read off the initial
store. -/
theorem c9_partial_recovery (db : List ContainerRow) (s3 : S3Store)
    (now cutoff : Int)
    (hkeys : ((db.filter (fun r => partialSelected r cutoff)).map
      (fun r => r.s3_key)).Nodup) :
    (cleanup_partial_containers db s3 now cutoff).1 =
      db.map (fun r => if partialSelected r cutoff
        then (processPartial s3 now r).1 else r) ∧
    (cleanup_partial_containers db s3 now cutoff).2.2 =
      (db.filter (fun r => partialSelected r cutoff)).length ∧
    (∀ k, dictGet (cleanup_partial_containers db s3 now cutoff).2.1 k =
      if ∃ r ∈ db, partialSelected r cutoff = true ∧ r.s3_key = k ∧
          s3_exists s3 k = true ∧ (validate_container s3 k).1 = false
        then none else dictGet s3 k) ∧
    (∀ r : ContainerRow,
      (s3_exists s3 r.s3_key = false →
        (processPartial s3 now r).1 =
          { r with status := "failed", finalized_at := some now }) ∧
      (s3_exists s3 r.s3_key = true →
        (validate_container s3 r.s3_key).1 = false →
        (processPartial s3 now r).1 =
          { r with status := "failed", finalized_at := some now }) ∧
      (s3_exists s3 r.s3_key = true →
        (validate_container s3 r.s3_key).1 = true →
        (processPartial s3 now r).1 = { r with
          status := "uploaded"
          finalized_at := some now
          file_count := (validate_container s3 r.s3_key).2.getD r.file_count })) := by
  obtain ⟨h1, h2, h3⟩ := cleanup_aux db s3 s3 now cutoff (fun _ _ _ => rfl) hkeys
  refine ⟨h1, h2, h3, fun r => ⟨?_, ?_, ?_⟩⟩
  · intro h
    rw [processPartial_absent s3 now r h]
  · intro ha hb
    rw [processPartial_invalid s3 now r ha hb]
  · intro ha hb
    rw [processPartial_valid s3 now r ha hb]

/-- A store for the C9 witness: one structurally valid container (header
plus a well-formed empty footer) and one corrupt object. -/
def c9S3 : S3Store :=
  [("s/valid.des", headerBytes ++ packFooter 16 0 16 0 16 0 0),
   ("s/corrupt.des", [1, 2, 3])]

/-- Container rows for the C9 witness: three stale "writing" rows (valid,
corrupt, missing object), one "uploaded" row and one fresh "writing" row. -/
def c9Rows : List ContainerRow :=
  [⟨1, 0, "2025-01-01", "writing", "s/valid.des", 5, 0, 0, none⟩,
   ⟨2, 0, "2025-01-01", "writing", "s/corrupt.des", 0, 0, 0, none⟩,
   ⟨3, 0, "2025-01-01", "writing", "s/missing.des", 0, 0, 0, none⟩,
   ⟨4, 0, "2025-01-01", "uploaded", "s/other.des", 0, 0, 0, none⟩,
   ⟨5, 0, "2025-01-01", "writing", "s/young.des", 0, 0, 50, none⟩]

set_option maxRecDepth 40000 in
theorem c9_partial_recovery_witness :
    (cleanup_partial_containers c9Rows c9S3 100 10).1 =
      c9Rows.map (fun r => if partialSelected r 10
        then (processPartial c9S3 100 r).1 else r) ∧
    (cleanup_partial_containers c9Rows c9S3 100 10).2.2 =
      (c9Rows.filter (fun r => partialSelected r 10)).length ∧
    (∀ k, dictGet (cleanup_partial_containers c9Rows c9S3 100 10).2.1 k =
      if ∃ r ∈ c9Rows, partialSelected r 10 = true ∧ r.s3_key = k ∧
          s3_exists c9S3 k = true ∧ (validate_container c9S3 k).1 = false
        then none else dictGet c9S3 k) ∧
    (∀ r : ContainerRow,
      (s3_exists c9S3 r.s3_key = false →
        (processPartial c9S3 100 r).1 =
          { r with status := "failed", finalized_at := some 100 }) ∧
      (s3_exists c9S3 r.s3_key = true →
        (validate_container c9S3 r.s3_key).1 = false →
        (processPartial c9S3 100 r).1 =
          { r with status := "failed", finalized_at := some 100 }) ∧
      (s3_exists c9S3 r.s3_key = true →
        (validate_container c9S3 r.s3_key).1 = true →
        (processPartial c9S3 100 r).1 = { r with
          status := "uploaded"
          finalized_at := some 100
          file_count := (validate_container c9S3 r.s3_key).2.getD
            r.file_count })) :=
  c9_partial_recovery c9Rows c9S3 100 10 (by decide)

end Des
